import Mathlib

/-!
Verification of the ALIAS spectral-analysis pipeline.

The development shallowly embeds the numeric core of the pipeline:
continuum estimation and normalization, residual extraction, peak
detection (the `scipy.signal.find_peaks` local-maximum algorithm),
LSF line characterization, and the injection-test scoring arithmetic.

Modelling conventions:
* floating-point sample values are modelled as rationals (`ℚ`);
  a possibly-missing (NaN) sample is an `Option ℚ`, with `none` for NaN;
  comparisons against `none` are false, mirroring IEEE NaN comparisons,
  and arithmetic on `none` propagates `none`;
* operations that raise in Python/numpy (empty polynomial fits, empty
  interpolation sample arrays, indexing an empty batch) return
  `Except` errors;
* `np.polyfit` is modelled as the least-squares solution of the normal
  equations by Cramer's rule.  This is exact whenever the Vandermonde
  design matrix has full column rank (at least seven distinct sample
  positions, the generic case).  A rank-deficient fit, which numpy
  resolves to a minimum-norm solution while emitting a RankWarning, is
  modelled as a `singularFit` error, matching the documented
  ill-posed-fit error condition; an empty fit is numpy's TypeError.
-/

deriving instance DecidableEq for Except

/-- Comparison of possibly-missing values: any comparison with NaN is false. -/
def oLT (a b : Option ℚ) : Bool :=
  match a, b with
  | some x, some y => decide (x < y)
  | _, _ => false

/-- NaN-propagating subtraction. -/
def oSub (a b : Option ℚ) : Option ℚ :=
  match a, b with
  | some x, some y => some (x - y)
  | _, _ => none

/-- Python list slicing `l[a:b]` with step 1, including negative-index wrapping. -/
def pySlice {α : Type} (l : List α) (a b : ℤ) : List α :=
  let n : ℤ := l.length
  let lo := max (if a < 0 then n + a else a) 0
  let hi := min (if b < 0 then n + b else b) n
  (l.take hi.toNat).drop lo.toNat

/-- Fuel-driven chunking; `chunkGo k fuel l` splits `l` into blocks of `k`. -/
def chunkGo {α : Type} (k : ℕ) : ℕ → List α → List (List α)
  | 0, _ => []
  | fuel + 1, l => if l.isEmpty then [] else l.take k :: chunkGo k fuel (l.drop k)

/-- Split a list into contiguous blocks of length `k` (the last may be short). -/
def chunkList {α : Type} (l : List α) (k : ℕ) : List (List α) :=
  chunkGo k l.length l

/-- Valid (non-missing) values of a sample list, in ascending order. -/
def sortedVals (l : List (Option ℚ)) : List ℚ :=
  List.insertionSort (· ≤ ·) (l.filterMap id)

/-- Linear-interpolation percentile of a nonempty ascending value list,
as computed by `np.percentile` with the default interpolation. -/
def percLin (v : List ℚ) (q : ℚ) : ℚ :=
  let h : ℚ := ((v.length : ℚ) - 1) * q / 100
  let i : ℕ := (Int.floor h).toNat
  let lo := v.getD i 0
  lo + (h - (i : ℚ)) * (v.getD (i + 1) lo - lo)

/-- Model of `np.nanpercentile`: percentile of the valid values,
`none` (NaN) when every value is missing. -/
def nanPercentile (q : ℚ) (l : List (Option ℚ)) : Option ℚ :=
  if (sortedVals l).isEmpty then none else some (percLin (sortedVals l) q)

/-- Model of `np.nanmedian` of one column. -/
def nanMedian (l : List (Option ℚ)) : Option ℚ :=
  let v := sortedVals l
  let k := v.length
  if k = 0 then none
  else if k % 2 = 1 then some (v.getD ((k - 1) / 2) 0)
  else some ((v.getD (k / 2 - 1) 0 + v.getD (k / 2) 0) / 2)

/-- Errors surfaced by the continuum pipeline. -/
inductive ContErr : Type
  | insufficientData
  | singularFit
  | nanFit
  | indexError
deriving DecidableEq, Repr

/-- Normal-equation matrix of the degree-6 least-squares problem:
entry `(i, j)` is `Σ x^((6-i)+(6-j))` over the sample positions. -/
def normalMat (xs : List ℕ) : Matrix (Fin 7) (Fin 7) ℚ :=
  Matrix.of fun i j => (xs.map (fun t => (t : ℚ) ^ ((6 - i.val) + (6 - j.val)))).sum

/-- Right-hand side of the normal equations: entry `i` is `Σ x^(6-i)·y`. -/
def normalVec (xs : List ℕ) (ys : List ℚ) : Fin 7 → ℚ :=
  fun i => ((xs.zip ys).map (fun p => (p.1 : ℚ) ^ (6 - i.val) * p.2)).sum

/-- Model of `np.polyfit(xs, ys, 6)`: coefficients, highest degree first.
Empty input is numpy's TypeError; missing (NaN) values make the
least-squares routine fail; a singular normal matrix is the documented
ill-posed-fit error (numpy: rank-deficient minimum-norm fit). -/
def polyfitO (xs : List ℕ) (oys : List (Option ℚ)) : Except ContErr (List ℚ) :=
  if xs.isEmpty then .error .insufficientData
  else
    match oys.mapM (fun o => o) with
    | none => .error .nanFit
    | some ys =>
      let A := normalMat xs
      let b := normalVec xs ys
      if A.det = 0 then .error .singularFit
      else .ok ((List.finRange 7).map (fun i => Matrix.cramer A b i / A.det))

/-- Model of `np.polyval`: Horner evaluation, coefficients highest first. -/
def polyval (p : List ℚ) (x : ℚ) : ℚ :=
  p.foldl (fun acc c => acc * x + c) 0

/-- Pad the flux with NaN to the next multiple of the 100-pixel segment length
(`flux = np.concatenate((flux, [math.nan]*(segment_len - len(flux) % segment_len)))`). -/
def padFlux (flux : List (Option ℚ)) : List (Option ℚ) :=
  flux ++ List.replicate (100 - flux.length % 100) none

/-- The contiguous 100-pixel segments of the padded flux. -/
def fluxSegments (flux : List (Option ℚ)) : List (List (Option ℚ)) :=
  chunkList (padFlux flux) 100

/-- Offsets within one segment whose flux lies strictly between the segment's
70th and 80th nan-percentiles
(`np.where((flux_segments[n] > min_perc[n]) & (flux_segments[n] < max_perc[n]))[0]`). -/
def selectedIdx (seg : List (Option ℚ)) : List ℕ :=
  let lo := nanPercentile 70 seg
  let hi := nanPercentile 80 seg
  (List.range seg.length).filter
    (fun j => oLT lo (seg.getD j none) && oLT (seg.getD j none) hi)

/-- All continuum pixels of a spectrum, segment by segment with offsets. -/
def allContinuumPixels (flux : List (Option ℚ)) : List ℕ :=
  (fluxSegments flux).enum.flatMap (fun p => (selectedIdx p.2).map (· + 100 * p.1))

/-- Continuum pixels used by the first chip-band fit (`all_continuum_pixels < 3400`). -/
def contPixels1 (flux : List (Option ℚ)) : List ℕ :=
  (allContinuumPixels flux).filter (fun p => decide (p < 3400))

/-- Continuum pixels used by the second chip-band fit
(`(all_continuum_pixels > 3400) & (all_continuum_pixels < 6250)`). -/
def contPixels2 (flux : List (Option ℚ)) : List ℕ :=
  (allContinuumPixels flux).filter (fun p => decide (3400 < p) && decide (p < 6250))

/-- Continuum pixels used by the third chip-band fit (`all_continuum_pixels > 6250`). -/
def contPixels3 (flux : List (Option ℚ)) : List ℕ :=
  (allContinuumPixels flux).filter (fun p => decide (6250 < p))

/-- Degree-6 fit of the padded flux restricted to one band's continuum pixels. -/
def fitBand (flux : List (Option ℚ)) (pix : List ℕ) : Except ContErr (List ℚ) :=
  polyfitO pix (pix.map (fun p => (padFlux flux).getD p none))

/-- Evaluation of a fitted polynomial over the pixel range `0, …, L-1`
(`np.polyval(fit, range(len(flux)))`). -/
def polyRange (p : List ℚ) (L : ℕ) : List ℚ :=
  (List.range L).map (fun (i : ℕ) => polyval p (i : ℚ))

/-- Model of `_extract_continuum` (equivalently `_continuum`):
three per-band degree-6 fits of the continuum pixels, each evaluated over
the full padded pixel range, concatenated as
`cont1[:3400] ++ cont2[3400:6250] ++ cont3[6250:]`. -/
def extractContinuum (flux : List (Option ℚ)) : Except ContErr (List ℚ) := do
  let fit1 ← fitBand flux (contPixels1 flux)
  let fit2 ← fitBand flux (contPixels2 flux)
  let fit3 ← fitBand flux (contPixels3 flux)
  let L := (padFlux flux).length
  return (polyRange fit1 L).take 3400 ++
    ((polyRange fit2 L).drop 3400).take 2850 ++ (polyRange fit3 L).drop 6250

/-- A collection of spectra sharing one wavelength grid. -/
structure Dataset : Type where
  wave : List (Option ℚ)
  flux : List (List (Option ℚ))
  ivar : List (List (Option ℚ))

/-- Model of `continuum_normalize`: per-spectrum continua (truncated to the
first spectrum's length), flux divided by continuum, inverse variance
multiplied by the squared continuum. -/
def continuum_normalize (ds : Dataset) : Except ContErr Dataset := do
  let conts ← ds.flux.mapM extractContinuum
  match ds.flux.head? with
  | none => throw .indexError
  | some r0 =>
    let conts := conts.map (fun c => c.take r0.length)
    return ⟨ds.wave,
      ds.flux.zipWith (fun row c => row.zipWith (fun f cv => f.map (· / cv)) c) conts,
      ds.ivar.zipWith (fun row c => row.zipWith (fun v cv => v.map (· * cv ^ 2)) c) conts⟩

/-- Entries below the 0.05 reliability floor are masked to NaN before the
column median (`np.ma.filled(np.ma.MaskedArray(ds.flux, ds.flux < 0.05), np.nan)`). -/
def maskLow (x : Option ℚ) : Option ℚ :=
  match x with
  | some v => if v < 1 / 20 then none else some v
  | none => none

/-- Per-pixel cross-spectrum nan-median of the masked flux. -/
def medianFlux (flux : List (List (Option ℚ))) : List (Option ℚ) :=
  (List.range (flux.headD []).length).map
    (fun j => nanMedian (flux.map (fun row => (row.map maskLow).getD j none)))

/-- Model of `get_residuals`: subtract the per-pixel masked median. -/
def get_residuals (ds : Dataset) : Dataset :=
  ⟨ds.wave, ds.flux.map (fun row => row.zipWith oSub (medianFlux ds.flux)), ds.ivar⟩

/-- Inner plateau scan of `scipy.signal._local_maxima_1d`: starting at `ia`,
advance while strictly before `imax` and the value still equals `v`. -/
def plateauGo (x : List ℚ) (imax : ℕ) (v : ℚ) : ℕ → ℕ → ℕ
  | 0, ia => ia
  | fuel + 1, ia =>
    if ia < imax ∧ x.getD ia 0 = v then plateauGo x imax v fuel (ia + 1) else ia

/-- Outer loop of `scipy.signal._local_maxima_1d`: a sample opening a strict
rise is extended over its plateau; if the plateau is followed by a strict
fall, the plateau midpoint (rounded down) is recorded and the scan resumes
just past the plateau. -/
def lmGo (x : List ℚ) (imax : ℕ) : ℕ → ℕ → List ℕ
  | 0, _ => []
  | fuel + 1, i =>
    if i < imax then
      if x.getD (i - 1) 0 < x.getD i 0 then
        let ia := plateauGo x imax (x.getD i 0) imax (i + 1)
        if x.getD ia 0 < x.getD i 0 then
          (i + (ia - 1)) / 2 :: lmGo x imax fuel (ia + 1)
        else lmGo x imax fuel (i + 1)
      else lmGo x imax fuel (i + 1)
    else []

/-- Local maxima of a sample vector, as found by `scipy.signal._local_maxima_1d`. -/
def localMaxima (x : List ℚ) : List ℕ :=
  lmGo x (x.length - 1) x.length 1

/-- Model of `detect`: `scipy.signal.find_peaks(flux, height=0.05)[0]`, the
local maxima whose height is at least the threshold.  The `wave` and `ivar`
arguments are accepted and ignored, exactly as in the source. -/
def detect (wave : List (Option ℚ)) (flux : List ℚ) (ivar : List (Option ℚ)) : List ℕ :=
  (localMaxima flux).filter (fun p => decide ((1 : ℚ) / 20 ≤ flux.getD p 0))

/-- Interior maximal plateau `[l, r]` with strictly smaller neighbours on
both sides, phrased over `getD` indexing. -/
def plateauAtB (x : List ℚ) (l r : ℕ) : Bool :=
  decide (1 ≤ l) && decide (l ≤ r) && decide (r + 1 ≤ x.length - 1) &&
  decide (x.getD (l - 1) 0 < x.getD l 0) && decide (x.getD (r + 1) 0 < x.getD l 0) &&
  (List.range (r + 1 - l)).all (fun k => decide (x.getD (l + k) 0 = x.getD l 0))

/-- Spec-side peak predicate, amended form: `p` is the rounded-down midpoint
of an interior maximal plateau with strictly smaller neighbours. -/
def isSpecPeak (x : List ℚ) (p : ℕ) : Bool :=
  (List.range x.length).any (fun l =>
    (List.range x.length).any (fun r => plateauAtB x l r && decide (p = (l + r) / 2)))

/-- Spec-side detector, amended form: midpoints of interior maximal plateaus
whose height is at least the 0.05 threshold, in ascending pixel order. -/
def specDetect (x : List ℚ) : List ℕ :=
  (List.range x.length).filter
    (fun p => isSpecPeak x p && decide ((1 : ℚ) / 20 ≤ x.getD p 0))

/-- Spec-side detector exactly as claimed: first samples of interior maximal
plateaus with strictly smaller neighbours, height strictly above 0.05. -/
def specDetectClaim (x : List ℚ) : List ℕ :=
  (List.range x.length).filter
    (fun p => (List.range x.length).any (fun r => plateauAtB x p r) &&
      decide ((1 : ℚ) / 20 < x.getD p 0))

/-- A line-spread function: pixel offsets and relative response. -/
structure LSF : Type where
  x : List ℚ
  y : List ℚ

/-- Model of `np.linspace`. -/
def linspace (a b : ℚ) (num : ℕ) : List ℚ :=
  (List.range num).map (fun (i : ℕ) => a + (i : ℚ) * ((b - a) / ((num : ℚ) - 1)))

/-- The default LSF derived from APOGEE DR12 data. -/
def default_lsf : LSF :=
  ⟨linspace (-7) 7 43,
   [0.00308409, 0.00349727, 0.00405324, 0.00471973,
    0.00561687, 0.00755368, 0.01002816, 0.01260949,
    0.01570783, 0.02114526, 0.03197088, 0.05200233,
    0.08584419, 0.13909110, 0.21720967, 0.32272260,
    0.45251839, 0.60676233, 0.76493717, 0.89244588,
    0.97567601, 1.00000000, 0.96041723, 0.86549600,
    0.73198544, 0.58318216, 0.43714065, 0.30872274,
    0.21824080, 0.15021121, 0.09954796, 0.06641710,
    0.04516253, 0.03132488, 0.02248034, 0.01609376,
    0.01115971, 0.00800559, 0.00596385, 0.00467526,
    0.00387761, 0.00336630, 0.00304458]⟩

/-- Model of `np.interp` at one point, for ascending sample positions:
clamps below the first and above the last sample position, interpolates
linearly in between.  Total; the empty case (a numpy ValueError) is
guarded separately where the source can reach it. -/
def npInterpT (x : ℚ) : List ℚ → List ℚ → ℚ
  | [], _ => 0
  | _, [] => 0
  | [_], f0 :: _ => f0
  | _ :: _ :: _, [f0] => f0
  | x0 :: x1 :: xs, f0 :: f1 :: fs =>
    if x < x0 then f0
    else if x < x1 then f0 + (x - x0) * (f1 - f0) / (x1 - x0)
    else npInterpT x (x1 :: xs) (f1 :: fs)

/-- Errors surfaced by the characterization path. -/
inductive CharErr : Type
  | interpEmpty
  | nanAmp
deriving DecidableEq, Repr

/-- Model of `np.interp` where numpy raises ValueError on an empty
sample-position array. -/
def npInterpE (x : ℚ) (xp fp : List ℚ) : Except CharErr ℚ :=
  if xp.isEmpty then .error .interpEmpty else .ok (npInterpT x xp fp)

/-- First index attaining the minimum (scan tail with current best). -/
def argminGo : List ℚ → ℕ → ℚ → ℕ → ℕ
  | [], _, _, best => best
  | v :: rest, i, bv, best =>
    if v < bv then argminGo rest (i + 1) v i else argminGo rest (i + 1) bv best

/-- Model of `np.argmin`: first index of the minimum value. -/
def argmin : List ℚ → ℕ
  | [] => 0
  | v :: rest => argminGo rest 1 v 0

/-- Model of `_chi2_lsf`: chi-square between the samples and the LSF shifted
to `c` and scaled by `amp`, interpolated onto the integer grid.  The source
computes `((y - lsf) / ivar**-0.5)**2`; each term equals
`(y - lsf)^2 * ivar` exactly (for nonnegative inverse variance), which is
the square-root-free form embedded here with `w` the inverse variance. -/
def chi2_lsf (y w : List ℚ) (lsfx lsfy : List ℚ) (amp c : ℚ) : ℚ :=
  ((List.range y.length).map (fun i =>
    (y.getD i 0 - npInterpT (i : ℚ) (lsfx.map (· + c)) (lsfy.map (amp * ·))) ^ 2 *
      w.getD i 0)).sum

/-- Left half-max walk (`min = min-1 while flux[min] > amp/2 and min > 0`). -/
def walkLeft (flux : List ℚ) (half : ℚ) : ℕ → ℕ → ℕ
  | 0, m => m
  | fuel + 1, m =>
    if half < flux.getD m 0 ∧ 0 < m then walkLeft flux half fuel (m - 1) else m

/-- Right half-max walk (`max = max+1 while flux[max] > amp/2 and max < len-1`). -/
def walkRight (flux : List ℚ) (half : ℚ) (imax : ℕ) : ℕ → ℕ → ℕ
  | 0, m => m
  | fuel + 1, m =>
    if half < flux.getD m 0 ∧ m < imax then walkRight flux half imax fuel (m + 1) else m

/-- Width measurement of `_characterize_single`: walk outward from the window
centre until the flux drops below half the fitted amplitude, then linearly
interpolate each half-max crossing wavelength; returns the low and high
crossings `(wl_l, wl_h)`. -/
def widthWalk (wave flux : List ℚ) (bestAmp : ℚ) : ℚ × ℚ :=
  let wave_idx := wave.length / 2
  let mn := walkLeft flux (bestAmp / 2) flux.length (wave_idx - 1)
  let wl_l :=
    if mn = 0 then wave.getD 0 0
    else npInterpT (bestAmp / 2) ((flux.drop mn).take 2) ((wave.drop mn).take 2)
  let mx := walkRight flux (bestAmp / 2) (wave.length - 1) wave.length (wave_idx + 1)
  let wl_h :=
    if mx = 0 then wave.getD (wave.length - 1) 0
    else npInterpT (bestAmp / 2) (((flux.drop (mx - 1)).take 2).reverse)
      (((wave.drop (mx - 1)).take 2).reverse)
  (wl_l, wl_h)

/-- Model of `_characterize_single`: two-stage grid search (64 sub-pixel
centres over the pixel nearest the window midpoint at trial amplitude 0.3,
then 64 amplitudes spanning 0.7x to 1.4x the observed peak flux), followed
by the half-max width walk.  A NaN observed amplitude would propagate NaN
through the remaining stages in the source; it is modelled as an error
since no valid-data path reaches it. -/
def characterizeSingle (wave flux ivar : List ℚ) (amp : Option ℚ) :
    Except CharErr (ℚ × ℚ × ℚ) := do
  let center_idx := linspace ((wave.length : ℚ) / 2 - 1) ((wave.length : ℚ) / 2) 64
  let chi2 := center_idx.map
    (fun c => chi2_lsf flux ivar default_lsf.x default_lsf.y (3 / 10) c)
  let best_idx := center_idx.getD (argmin chi2) 0
  let best_wl ← npInterpE best_idx
    ((List.range wave.length).map (fun (i : ℕ) => (i : ℚ))) wave
  let a ← match amp with
    | some a => Except.ok a
    | none => Except.error CharErr.nanAmp
  let amps := linspace (a * 7 / 10) (a * 14 / 10) 64
  let chi2b := amps.map
    (fun am => chi2_lsf flux ivar default_lsf.x default_lsf.y am best_idx)
  let best_amplitude := amps.getD (argmin chi2b) 0
  let wl := widthWalk wave flux best_amplitude
  return (best_wl, best_amplitude, wl.2 - wl.1)

/-- Model of `characterize`: slice the 21-pixel window around the candidate,
drop every sample where wave, flux or ivar is missing, and fit. -/
def characterize (wave flux ivar : List (Option ℚ)) (peak : ℕ) :
    Except CharErr (ℚ × ℚ × ℚ) :=
  let pw := pySlice wave ((peak : ℤ) - 10) ((peak : ℤ) + 11)
  let pf := pySlice flux ((peak : ℤ) - 10) ((peak : ℤ) + 11)
  let pv := pySlice ivar ((peak : ℤ) - 10) ((peak : ℤ) + 11)
  let kept := (pw.zip (pf.zip pv)).filterMap (fun t =>
    match t with
    | (some w, (some f, some v)) => some (w, f, v)
    | _ => none)
  characterizeSingle (kept.map (fun t => t.1)) (kept.map (fun t => t.2.1))
    (kept.map (fun t => t.2.2)) (flux.getD peak none)

/-- Model of `create_laser_signature`: the LSF linearly interpolated at the
integer pixel grid shifted by the sub-pixel centre. -/
def create_laser_signature (wave : List (Option ℚ)) (lsf : LSF) (idx : ℚ) : List ℚ :=
  (List.range wave.length).map (fun (i : ℕ) => npInterpT ((i : ℚ) - idx) lsf.x lsf.y)

/-- Model of `inject`: add the scaled synthetic line to one spectrum's flux. -/
def inject (ds : Dataset) (lsf : LSF) (specId : ℕ) (idx : ℚ) (amp : ℚ) : Dataset :=
  let line := create_laser_signature ds.wave lsf idx
  ⟨ds.wave,
   ds.flux.set specId
     ((ds.flux.getD specId []).zipWith (fun f lv => f.map (· + lv * amp)) line),
   ds.ivar⟩

/-- Recovery-scoring arithmetic of `injection_test` (lines
`detected = sum(weirdness[idx_int-3:idx_int+4] > 1)` and
`falsepos = sum(weirdness > 1) - detected`): the detector output, an array
of peak pixel indices, is sliced positionally and compared with 1. -/
def scoreDetection (weirdness : List ℕ) (idx_int : ℤ) : Bool × ℕ :=
  let detected := ((pySlice weirdness (idx_int - 3) (idx_int + 4)).filter
    (fun p => decide (1 < p))).length
  (decide (0 < detected), (weirdness.filter (fun p => decide (1 < p))).length - detected)

/-- Scoring as the specification states it: detected iff some flagged pixel
lies within three pixels of the injected index; every other flagged pixel
is a false positive. -/
def claimScore (weirdness : List ℕ) (idx_int : ℤ) : Bool × ℕ :=
  (weirdness.any (fun p => decide ((p : ℤ) - idx_int ≤ 3 ∧ idx_int - (p : ℤ) ≤ 3)),
   (weirdness.filter (fun p =>
     decide (¬((p : ℤ) - idx_int ≤ 3 ∧ idx_int - (p : ℤ) ≤ 3)))).length)

/-- Concrete spectrum for the band-boundary counterexample: all pixels below
3400 are missing, and pixels 3400..3404 hold 4, 1, 2, 3, 5, so that pixel
3400 (value 4) is the unique continuum pixel of its segment. -/
def exF4 : List (Option ℚ) :=
  List.replicate 3400 none ++ [some 4, some 1, some 2, some 3, some 5]

/-- The single populated segment of `exF4`, padded to the 100-pixel length. -/
def exSeg4 : List (Option ℚ) :=
  [some 4, some 1, some 2, some 3, some 5] ++ List.replicate 95 none

/-- Tiny concrete dataset used to witness the hypotheses of the
componentwise normalization theorem. -/
def dsW9 : Dataset := ⟨[some 0], [[some 1]], [[some 1]]⟩

/-- Pointwise scaling of a spectrum by a constant, with NaN preserved. -/
def scaleO (c : ℚ) (l : List (Option ℚ)) : List (Option ℚ) :=
  l.map (Option.map (c * ·))

/-- Interior maximal plateau of a sample vector, as a proposition: constant
on `[l, r]`, strictly smaller neighbours on both sides, within the scan range
of `_local_maxima_1d`. -/
def PlateauAt (x : List ℚ) (l r : ℕ) : Prop :=
  1 ≤ l ∧ l ≤ r ∧ r + 1 ≤ x.length - 1 ∧
  x.getD (l - 1) 0 < x.getD l 0 ∧ x.getD (r + 1) 0 < x.getD l 0 ∧
  ∀ j, l ≤ j → j ≤ r → x.getD j 0 = x.getD l 0

/-- Plateau midpoints whose plateau starts at or after position `i0`. -/
def SpecPeakFrom (x : List ℚ) (i0 p : ℕ) : Prop :=
  ∃ l r, i0 ≤ l ∧ PlateauAt x l r ∧ p = (l + r) / 2

/-!
Theorems settling the claims.
-/

/-- C10: the peak detector's result depends only on its flux argument; the
wave and inverse-variance arguments are ignored, so any two calls with the
same flux return the same (deterministic) sequence of peak indices. -/
theorem detect_depends_only_on_flux (w w' iv iv' : List (Option ℚ)) (flux : List ℚ) :
    detect w flux iv = detect w' flux iv' := rfl

/-- C3: the recovery scoring of `injection_test` does not implement the
claimed rule.  With the detector flagging exactly the injected pixel 10,
the claimed rule records the trial as detected with no false positives,
but the source slices the peak-index list positionally
(`weirdness[idx_int-3:idx_int+4]`) and compares the pixel indices with 1
(`> 1`), recording the trial as not detected with one false positive. -/
theorem injection_scoring_diverges :
    scoreDetection [10] 10 = (false, 1) ∧ claimScore [10] 10 = (true, 0) := by
  decide

unseal Rat.add Rat.mul Rat.inv Rat.sub Rat.ofScientific in
/-- C7: a candidate whose 21-pixel window is entirely missing after the
NaN filter (here: every window ivar is NaN) is not rejected before the
fit; the fit runs and fails at `np.interp` over an empty sample array —
the numpy ValueError modelled as `interpEmpty` — rather than being
reported as a per-candidate characterization failure. -/
theorem characterize_empty_window_crashes :
    characterize ((List.range 21).map (fun i => some (i : ℚ)))
      ((List.range 21).map (fun _ => some (1 : ℚ)))
      (List.replicate 21 none) 10 = .error .interpEmpty := by
  decide

unseal Rat.add Rat.mul Rat.inv Rat.sub Rat.ofScientific in
/-- C1 counterexample: on an all-valid, perfectly flat unit flux the strict
percentile window selects no continuum pixel, so the first band fit is the
empty-fit error rather than a ≈1.0 continuum. -/
theorem extractContinuum_flat_cex :
    extractContinuum (List.replicate 5 (some 1)) = .error .insufficientData := by
  decide

unseal Rat.add Rat.mul Rat.inv Rat.sub Rat.ofScientific in
/-- C2 counterexample: on the plateau `[0,1,1,1,0]` the detector reports the
plateau midpoint 2, not the claimed first sample 1; and at exact threshold
height 0.05 the detector keeps the peak while the claimed strict rule
drops it. -/
theorem detect_claim_cex :
    detect [] [0, 1, 1, 1, 0] [] = [2] ∧ specDetectClaim [0, 1, 1, 1, 0] = [1] ∧
    detect [] [0, 1 / 20, 0] [] = [1] ∧ specDetectClaim [0, 1 / 20, 0] = [] := by
  decide

unseal Rat.add Rat.mul Rat.inv Rat.sub Rat.ofScientific in
/-- C6 counterexample: a dataset of identical spectra whose single flux value
0.0 lies below the 0.05 floor is fully masked, so the median and hence the
residual are NaN, not zero. -/
theorem get_residuals_identical_cex :
    (get_residuals ⟨[some 0], [[some 0]], [[some 1]]⟩).flux = [[none]] ∧
    ([[none]] : List (List (Option ℚ))) ≠ [[some 0]] := by
  decide

theorem chunkGo_fuel_irrel {α : Type} (k : ℕ) (hk : 0 < k) :
    ∀ (fuel fuel' : ℕ) (l : List α), l.length ≤ fuel → l.length ≤ fuel' →
      chunkGo k fuel l = chunkGo k fuel' l := by
  intro fuel
  induction fuel with
  | zero =>
    intro fuel' l hf hf'
    have hl : l = [] := List.eq_nil_of_length_eq_zero (Nat.le_zero.mp hf)
    subst hl
    cases fuel' <;> simp [chunkGo]
  | succ n ih =>
    intro fuel' l hf hf'
    cases fuel' with
    | zero =>
      have hl : l = [] := List.eq_nil_of_length_eq_zero (Nat.le_zero.mp hf')
      subst hl
      simp [chunkGo]
    | succ n' =>
      cases l with
      | nil => simp [chunkGo]
      | cons a as =>
        simp only [List.length_cons] at hf hf'
        simp only [chunkGo, List.isEmpty_cons]
        have hdrop : ((a :: as).drop k).length ≤ n := by
          simp only [List.length_drop, List.length_cons]
          omega
        have hdrop' : ((a :: as).drop k).length ≤ n' := by
          simp only [List.length_drop, List.length_cons]
          omega
        rw [ih n' _ hdrop hdrop']

theorem chunkList_cons {α : Type} (k : ℕ) (hk : 0 < k) (l : List α) (hl : l ≠ []) :
    chunkList l k = l.take k :: chunkList (l.drop k) k := by
  cases l with
  | nil => exact absurd rfl hl
  | cons a as =>
    show chunkGo k (as.length + 1) (a :: as) = _
    simp only [chunkGo, List.isEmpty_cons, Bool.false_eq_true, if_false]
    congr 1
    exact chunkGo_fuel_irrel k hk as.length _ _
      (by simp only [List.length_drop, List.length_cons]; omega) le_rfl

theorem chunkList_replicate_append {α : Type} (x : α) :
    ∀ (m : ℕ) (rest : List α),
      chunkList (List.replicate (100 * m) x ++ rest) 100 =
        List.replicate m (List.replicate 100 x) ++ chunkList rest 100 := by
  intro m
  induction m with
  | zero => intro rest; simp
  | succ n ih =>
    intro rest
    have hsplit : List.replicate (100 * (n + 1)) x =
        List.replicate 100 x ++ List.replicate (100 * n) x := by
      rw [← List.replicate_add]
      congr 1
      ring
    rw [hsplit, List.append_assoc,
      chunkList_cons 100 (by norm_num) _ (by simp),
      List.take_left' (by simp), List.drop_left' (by simp), ih]
    simp [List.replicate_succ]

unseal Rat.add Rat.mul Rat.inv Rat.sub Rat.ofScientific in
theorem selectedIdx_exSeg4 : selectedIdx exSeg4 = [0] := by decide

theorem selectedIdx_noneSeg : selectedIdx (List.replicate 100 none) = [] := by decide

theorem padFlux_exF4 : padFlux exF4 = List.replicate (100 * 34) none ++ exSeg4 := by
  show exF4 ++ List.replicate (100 - exF4.length % 100) none = _
  have hlen : exF4.length = 3405 := by
    rw [exF4, List.length_append, List.length_replicate]
    rfl
  rw [hlen]
  have h95 : 100 - 3405 % 100 = 95 := by norm_num
  have h34 : 100 * 34 = 3400 := by norm_num
  rw [h95, h34, exF4, exSeg4, List.append_assoc]

theorem fluxSegments_exF4 :
    fluxSegments exF4 = List.replicate 34 (List.replicate 100 none) ++ [exSeg4] := by
  show chunkList (padFlux exF4) 100 = _
  rw [padFlux_exF4, chunkList_replicate_append]
  congr 1

theorem enumFrom_replicate_flatMap_nil (f : ℕ × List (Option ℚ) → List ℕ)
    (hf : ∀ i blk, f (i, blk) = (selectedIdx blk).map (· + 100 * i)) :
    ∀ (m n : ℕ), ((List.replicate m (List.replicate 100 (none : Option ℚ))).enumFrom n).flatMap f = [] := by
  intro m
  induction m with
  | zero => intro n; simp
  | succ k ih =>
    intro n
    rw [List.replicate_succ, List.enumFrom_cons, List.flatMap_cons, hf,
      selectedIdx_noneSeg, ih]
    rfl

theorem allContinuumPixels_exF4 : allContinuumPixels exF4 = [3400] := by
  show ((fluxSegments exF4).enum.flatMap fun p => (selectedIdx p.2).map (· + 100 * p.1)) = _
  rw [fluxSegments_exF4, List.enum_eq_enumFrom, List.enumFrom_append,
    List.flatMap_append,
    enumFrom_replicate_flatMap_nil _ (fun i blk => rfl)]
  simp [selectedIdx_exSeg4, List.length_replicate]

/-- C4 counterexample: pixel 3400 is a continuum pixel of `exF4`, yet it is
excluded from all three band fits — in particular it does not participate in
the second band's fit, contradicting the claimed half-open band `[3400, 6250)`. -/
theorem contPixels_band_boundary_cex :
    3400 ∈ allContinuumPixels exF4 ∧ 3400 ∉ contPixels1 exF4 ∧
    3400 ∉ contPixels2 exF4 ∧ 3400 ∉ contPixels3 exF4 := by
  refine ⟨?_, ?_, ?_, ?_⟩
  · rw [allContinuumPixels_exF4]; exact List.mem_singleton.mpr rfl
  · simp [contPixels1]
  · simp [contPixels2]
  · simp [contPixels3]

/-- C4 (amended): the three per-band fits are restricted to continuum pixels
by the index sets `[0, 3400)`, `(3400, 6250)` and `(6250, N)`; both band
boundaries are strict on the left, so a continuum pixel at index exactly
3400 or exactly 6250 participates in no band's fit. -/
theorem contPixels_band_membership (flux : List (Option ℚ)) (p : ℕ) :
    (p ∈ contPixels1 flux ↔ p ∈ allContinuumPixels flux ∧ p < 3400) ∧
    (p ∈ contPixels2 flux ↔ p ∈ allContinuumPixels flux ∧ 3400 < p ∧ p < 6250) ∧
    (p ∈ contPixels3 flux ↔ p ∈ allContinuumPixels flux ∧ 6250 < p) ∧
    3400 ∉ contPixels1 flux ∧ 3400 ∉ contPixels2 flux ∧ 3400 ∉ contPixels3 flux ∧
    6250 ∉ contPixels1 flux ∧ 6250 ∉ contPixels2 flux ∧ 6250 ∉ contPixels3 flux := by
  simp [contPixels1, contPixels2, contPixels3, List.mem_filter]

theorem getD_map_eq {α β : Type} (f : α → β) (d : α) (l : List α) (j : ℕ) :
    (l.map f).getD j (f d) = f (l.getD j d) := by
  induction l generalizing j with
  | nil => rfl
  | cons a t ih =>
    cases j with
    | zero => rfl
    | succ n => exact ih n

theorem nanMedian_replicate_some (m : ℕ) (hm : 1 ≤ m) (q : ℚ) :
    nanMedian (List.replicate m (some q)) = some q := by
  have hfm : (List.replicate m (some q)).filterMap id = List.replicate m q :=
    List.filterMap_replicate_of_some rfl
  have hsort : sortedVals (List.replicate m (some q)) = List.replicate m q := by
    rw [sortedVals, hfm]
    exact List.Sorted.insertionSort_eq
      (List.pairwise_replicate.mpr (Or.inr le_rfl))
  rw [nanMedian, hsort]
  simp only [List.length_replicate]
  rcases Nat.eq_zero_or_pos m with h0 | hpos
  · omega
  by_cases hodd : m % 2 = 1
  · simp only [if_neg (by omega : ¬m = 0), if_pos hodd,
      List.getD_eq_getElem?_getD, List.getElem?_replicate,
      if_pos (by omega : (m - 1) / 2 < m)]
    rfl
  · have hm2 : 2 ≤ m := by omega
    simp only [if_neg (by omega : ¬m = 0), if_neg hodd,
      List.getD_eq_getElem?_getD, List.getElem?_replicate,
      if_pos (by omega : m / 2 - 1 < m), if_pos (by omega : m / 2 < m)]
    simp [add_self_div_two]

theorem medianFlux_replicate_succ (k : ℕ) (v : List (Option ℚ)) :
    medianFlux (List.replicate (k + 1) v) =
      (List.range v.length).map
        (fun j => nanMedian (List.replicate (k + 1) ((v.map maskLow).getD j none))) := by
  rw [medianFlux]
  have hhead : (List.replicate (k + 1) v).headD [] = v := by
    simp [List.replicate_succ]
  rw [hhead]
  refine List.map_congr_left (fun j _ => ?_)
  congr 1
  rw [List.map_replicate]

/-- C6 (amended): for a dataset in which every spectrum is the same vector
`v` of valid flux values that all lie at or above the 0.05 masking floor,
the residual is exactly zero at every pixel.  (A value below the floor is
masked before the median, making the median and residual NaN, so the
restriction to values at or above 0.05 is necessary.) -/
theorem get_residuals_identical (wv : List (Option ℚ)) (iv : List (List (Option ℚ)))
    (m : ℕ) (v : List (Option ℚ))
    (hv : v.all (fun x =>
      match x with
      | some q => decide ((1 : ℚ) / 20 ≤ q)
      | none => false) = true) :
    (get_residuals ⟨wv, List.replicate m v, iv⟩).flux =
      List.replicate m (v.map (fun _ => some (0 : ℚ))) := by
  cases m with
  | zero => rfl
  | succ k =>
    show (List.replicate (k + 1) v).map
        (fun row => row.zipWith oSub (medianFlux (List.replicate (k + 1) v))) = _
    rw [List.map_replicate]
    congr 1
    rw [medianFlux_replicate_succ]
    have hlen : (v.zipWith oSub ((List.range v.length).map
        (fun j => nanMedian (List.replicate (k + 1) ((v.map maskLow).getD j none))))).length
        = v.length := by
      simp
    apply List.ext_getElem
    · simp
    intro j h1 h2
    have hj : j < v.length := by simpa using h2
    have hmem : v[j] ∈ v := List.getElem_mem _
    have hvj := (List.all_eq_true.mp hv) _ hmem
    rw [List.getElem_zipWith, List.getElem_map]
    rcases hq : v[j] with _ | q
    · rw [hq] at hvj; simp at hvj
    rw [hq] at hvj
    have hge : (1 : ℚ) / 20 ≤ q := by simpa using hvj
    have hnlt : ¬(q < 1 / 20) := not_lt.mpr hge
    have hmask : (v.map maskLow).getD j none = some q := by
      have hmap : (v.map maskLow).getD j none = maskLow (v.getD j none) :=
        getD_map_eq maskLow none v j
      have hget : v.getD j none = some q := by
        rw [List.getD_eq_getElem?_getD, List.getElem?_eq_getElem hj, hq]
        rfl
      rw [hmap, hget]
      show (if q < 1 / 20 then none else some q) = some q
      rw [if_neg hnlt]
    rw [List.getElem_map, List.getElem_range, hmask,
      nanMedian_replicate_some (k + 1) (by omega) q]
    show oSub (some q) (some q) = some 0
    simp [oSub]

theorem mem_of_mem_chunkGo {α : Type} (k : ℕ) :
    ∀ (fuel : ℕ) (l : List α) (seg : List α), seg ∈ chunkGo k fuel l →
      ∀ x ∈ seg, x ∈ l := by
  intro fuel
  induction fuel with
  | zero => intro l seg h; simp [chunkGo] at h
  | succ f ih =>
    intro l seg h x hx
    rw [chunkGo] at h
    by_cases hl : l.isEmpty
    · simp [hl] at h
    · rw [if_neg hl] at h
      rcases List.mem_cons.mp h with h1 | h2
      · exact List.mem_of_mem_take (h1 ▸ hx)
      · exact List.mem_of_mem_drop (ih (l.drop k) seg h2 x hx)

theorem percLin_const (v : List ℚ) (c q : ℚ) (hne : v ≠ [])
    (hc : ∀ y ∈ v, y = c) (hq0 : 0 ≤ q) (hq1 : q ≤ 100) : percLin v q = c := by
  have hlen : 1 ≤ v.length := List.length_pos.mpr hne
  set h : ℚ := ((v.length : ℚ) - 1) * q / 100 with hh
  have hub : h ≤ (v.length : ℚ) - 1 := by
    rw [hh, div_le_iff₀ (by norm_num : (0 : ℚ) < 100)]
    have hnn : (0 : ℚ) ≤ (v.length : ℚ) - 1 := by
      have : (1 : ℚ) ≤ (v.length : ℚ) := by exact_mod_cast hlen
      linarith
    nlinarith
  have hfloor : Int.floor h ≤ (v.length : ℤ) - 1 := by
    have h2 : Int.floor ((v.length : ℚ) - 1) = (v.length : ℤ) - 1 := by
      have hcast : ((v.length : ℚ) - 1) = (((v.length : ℤ) - 1 : ℤ) : ℚ) := by
        push_cast
        ring
      rw [hcast, Int.floor_intCast]
    calc Int.floor h ≤ Int.floor ((v.length : ℚ) - 1) := Int.floor_le_floor hub
      _ = (v.length : ℤ) - 1 := h2
  have hidx : (Int.floor h).toNat < v.length := by
    have := Int.toNat_le_toNat hfloor
    have h2 : ((v.length : ℤ) - 1).toNat = v.length - 1 := by omega
    omega
  have hlo : v.getD (Int.floor h).toNat 0 = c := by
    rw [List.getD_eq_getElem?_getD, List.getElem?_eq_getElem hidx]
    simp only [Option.getD_some]
    exact hc _ (List.getElem_mem _)
  show v.getD (Int.floor h).toNat 0 +
      (h - ((Int.floor h).toNat : ℚ)) *
        (v.getD ((Int.floor h).toNat + 1) (v.getD (Int.floor h).toNat 0) -
          v.getD (Int.floor h).toNat 0) = c
  rw [hlo]
  have hnext : v.getD ((Int.floor h).toNat + 1) c = c := by
    rcases Nat.lt_or_ge ((Int.floor h).toNat + 1) v.length with hlt | hge
    · rw [List.getD_eq_getElem?_getD, List.getElem?_eq_getElem hlt]
      simp only [Option.getD_some]
      exact hc _ (List.getElem_mem _)
    · rw [List.getD_eq_getElem?_getD, List.getElem?_eq_none hge]
      rfl
  rw [hnext]
  ring

theorem sortedVals_all_eq (seg : List (Option ℚ)) (c : ℚ)
    (hseg : ∀ x ∈ seg, x = some c ∨ x = none) :
    ∀ y ∈ sortedVals seg, y = c := by
  intro y hy
  have hy' : y ∈ seg.filterMap id :=
    (List.perm_insertionSort (· ≤ ·) (seg.filterMap id)).subset hy
  rcases List.mem_filterMap.mp hy' with ⟨x, hx, hxy⟩
  rcases hseg x hx with h1 | h1 <;> rw [h1] at hxy
  · exact (Option.some_injective _ hxy.symm).symm ▸ (Option.some.inj hxy).symm ▸ rfl
  · cases hxy

theorem selectedIdx_const_or_none (seg : List (Option ℚ)) (c : ℚ)
    (hseg : ∀ x ∈ seg, x = some c ∨ x = none) : selectedIdx seg = [] := by
  rw [selectedIdx]
  rw [List.filter_eq_nil_iff]
  intro j hj
  rcases hempty : sortedVals seg with _ | ⟨y, ys⟩
  · have hlo : nanPercentile 70 seg = none := by
      rw [nanPercentile, if_pos (by rw [hempty]; rfl)]
    simp [hlo, oLT]
  · have hne : sortedVals seg ≠ [] := by rw [hempty]; exact List.cons_ne_nil y ys
    have hlo : nanPercentile 70 seg = some c := by
      rw [nanPercentile, if_neg (by rw [hempty]; simp)]
      exact congrArg some
        (percLin_const _ c 70 hne (sortedVals_all_eq seg c hseg) (by norm_num) (by norm_num))
    have hhi : nanPercentile 80 seg = some c := by
      rw [nanPercentile, if_neg (by rw [hempty]; simp)]
      exact congrArg some
        (percLin_const _ c 80 hne (sortedVals_all_eq seg c hseg) (by norm_num) (by norm_num))
    rw [hlo, hhi]
    rcases Nat.lt_or_ge j seg.length with hjl | hjl
    · have hmem : seg.getD j none ∈ seg := by
        rw [List.getD_eq_getElem?_getD, List.getElem?_eq_getElem hjl]
        exact List.getElem_mem _
      rcases hseg _ hmem with h1 | h1 <;> rw [h1]
      · simp [oLT]
      · simp [oLT]
    · rw [List.getD_eq_getElem?_getD, List.getElem?_eq_none hjl]
      simp [oLT]

theorem allContinuumPixels_const (n : ℕ) (c : ℚ) :
    allContinuumPixels (List.replicate n (some c)) = [] := by
  rw [allContinuumPixels, List.flatMap_eq_nil_iff]
  intro p hp
  have hmem : p.2 ∈ fluxSegments (List.replicate n (some c)) := by
    have : p.2 ∈ (fluxSegments (List.replicate n (some c))).enum.map Prod.snd :=
      List.mem_map_of_mem Prod.snd hp
    rwa [List.enum_map_snd] at this
  have hseg : ∀ x ∈ p.2, x = some c ∨ x = none := by
    intro x hx
    have hx' : x ∈ padFlux (List.replicate n (some c)) :=
      mem_of_mem_chunkGo 100 _ _ _ hmem x hx
    rcases List.mem_append.mp hx' with h1 | h1
    · exact Or.inl (List.eq_of_mem_replicate h1)
    · exact Or.inr (List.eq_of_mem_replicate h1)
  rw [selectedIdx_const_or_none p.2 c hseg]
  rfl

/-- C1 (amended): on an all-valid, perfectly flat unit flux no pixel lies
strictly between the segment's 70th and 80th percentile (all three are the
constant 1.0), so every band's continuum-pixel set is empty, the first band
fit raises numpy's empty-fit error, and the continuum estimator fails for
every such spectrum; continuum normalization of any dataset of such spectra
fails as well, instead of being a no-op. -/
theorem continuum_flat_unit_fails (n m : ℕ) (wv : List (Option ℚ))
    (iv : List (List (Option ℚ))) :
    extractContinuum (List.replicate n (some 1)) = .error .insufficientData ∧
    ∃ e, continuum_normalize
      ⟨wv, List.replicate m (List.replicate n (some 1)), iv⟩ = .error e := by
  have hext : extractContinuum (List.replicate n (some 1)) = .error .insufficientData := by
    have h1 : contPixels1 (List.replicate n (some 1)) = [] := by
      rw [contPixels1, allContinuumPixels_const n 1]
      rfl
    show (fitBand (List.replicate n (some 1)) (contPixels1 (List.replicate n (some 1))) >>=
      fun fit1 => _) = Except.error ContErr.insufficientData
    rw [h1]
    rfl
  refine ⟨hext, ?_⟩
  cases m with
  | zero => exact ⟨.indexError, rfl⟩
  | succ k =>
    refine ⟨.insufficientData, ?_⟩
    show (List.mapM extractContinuum
        (List.replicate (k + 1) (List.replicate n (some 1))) >>= fun conts => _) =
      Except.error ContErr.insufficientData
    rw [List.replicate_succ, List.mapM_cons, hext]
    rfl

unseal Rat.add Rat.mul Rat.inv Rat.sub Rat.ofScientific in
theorem get_residuals_identical_witness :
    (([some 1, some 2] : List (Option ℚ)).all (fun x =>
      match x with
      | some q => decide ((1 : ℚ) / 20 ≤ q)
      | none => false) = true) ∧
    (get_residuals ⟨[], List.replicate 2 [some 1, some 2], []⟩).flux =
      List.replicate 2 (([some 1, some 2] : List (Option ℚ)).map
        (fun _ => some (0 : ℚ))) :=
  ⟨by decide, get_residuals_identical [] [] 2 [some 1, some 2] (by decide)⟩

theorem walkLeft_to_zero (flux : List ℚ) (half : ℚ) :
    ∀ (fuel m : ℕ), m ≤ fuel → (∀ j, 1 ≤ j → j ≤ m → half < flux.getD j 0) →
      walkLeft flux half fuel m = 0 := by
  intro fuel
  induction fuel with
  | zero =>
    intro m hm _
    have : m = 0 := by omega
    subst this
    rfl
  | succ f ih =>
    intro m hm hpre
    cases m with
    | zero =>
      rw [walkLeft]
      rw [if_neg (by simp)]
    | succ mm =>
      rw [walkLeft,
        if_pos ⟨hpre (mm + 1) (by omega) le_rfl, Nat.succ_pos mm⟩]
      exact ih mm (by omega) (fun j h1 h2 => hpre j h1 (by omega))

theorem walkRight_to_imax (flux : List ℚ) (half : ℚ) (imax : ℕ) :
    ∀ (fuel m : ℕ), imax - m ≤ fuel → m ≤ imax →
      (∀ j, m ≤ j → j < imax → half < flux.getD j 0) →
      walkRight flux half imax fuel m = imax := by
  intro fuel
  induction fuel with
  | zero =>
    intro m hf hm _
    have : m = imax := by omega
    subst this
    rfl
  | succ f ih =>
    intro m hf hm hpre
    rcases Nat.lt_or_ge m imax with hlt | hge
    · rw [walkRight, if_pos ⟨hpre m le_rfl hlt, hlt⟩]
      exact ih (m + 1) (by omega) (by omega) (fun j h1 h2 => hpre j (by omega) h2)
    · have : m = imax := by omega
      subst this
      rw [walkRight]
      rw [if_neg (by simp)]

theorem take_two_drop (l : List ℚ) (i : ℕ) (h : i + 1 < l.length) :
    (l.drop i).take 2 = [l.getD i 0, l.getD (i + 1) 0] := by
  rw [List.drop_eq_getElem_cons (by omega), List.drop_eq_getElem_cons h]
  rw [List.getD_eq_getElem?_getD, List.getElem?_eq_getElem (by omega : i < l.length),
    List.getD_eq_getElem?_getD, List.getElem?_eq_getElem h]
  rfl

/-- C5: in the half-max width walk, if the flux stays strictly above half the
fitted amplitude all the way to an end of the window, the corresponding
crossing is reported as that end's wavelength: the left walk terminates at
index 0 and returns the first wavelength, and the right walk terminates at
the last index, whereupon the out-of-range interpolation clamps to the last
wavelength. -/
theorem widthWalk_clamps (wave flux : List ℚ) (a : ℚ)
    (hlen : flux.length = wave.length) (h3 : 3 ≤ wave.length) :
    ((∀ j ∈ List.range (wave.length / 2), 1 ≤ j → a / 2 < flux.getD j 0) →
      (widthWalk wave flux a).1 = wave.getD 0 0) ∧
    ((∀ j ∈ List.range wave.length, wave.length / 2 + 1 ≤ j →
        a / 2 < flux.getD j 0) →
      (widthWalk wave flux a).2 = wave.getD (wave.length - 1) 0) := by
  constructor
  · intro hpre
    have hmn : walkLeft flux (a / 2) flux.length (wave.length / 2 - 1) = 0 := by
      apply walkLeft_to_zero flux (a / 2) flux.length (wave.length / 2 - 1)
        (by omega)
      intro j h1 h2
      exact hpre j (List.mem_range.mpr (by omega)) h1
    show (if walkLeft flux (a / 2) flux.length (wave.length / 2 - 1) = 0
      then wave.getD 0 0
      else npInterpT (a / 2)
        ((flux.drop (walkLeft flux (a / 2) flux.length (wave.length / 2 - 1))).take 2)
        ((wave.drop (walkLeft flux (a / 2) flux.length (wave.length / 2 - 1))).take 2)) =
      wave.getD 0 0
    rw [if_pos hmn]
  · intro hpre
    have hmx : walkRight flux (a / 2) (wave.length - 1) wave.length
        (wave.length / 2 + 1) = wave.length - 1 := by
      apply walkRight_to_imax flux (a / 2) (wave.length - 1) wave.length
        (wave.length / 2 + 1) (by omega) (by omega)
      intro j h1 h2
      exact hpre j (List.mem_range.mpr (by omega)) h1
    show (if walkRight flux (a / 2) (wave.length - 1) wave.length
        (wave.length / 2 + 1) = 0
      then wave.getD (wave.length - 1) 0
      else npInterpT (a / 2)
        ((flux.drop (walkRight flux (a / 2) (wave.length - 1) wave.length
          (wave.length / 2 + 1) - 1)).take 2).reverse
        ((wave.drop (walkRight flux (a / 2) (wave.length - 1) wave.length
          (wave.length / 2 + 1) - 1)).take 2).reverse) =
      wave.getD (wave.length - 1) 0
    rw [hmx, if_neg (by omega)]
    have hfl : (flux.drop (wave.length - 1 - 1)).take 2 =
        [flux.getD (wave.length - 2) 0, flux.getD (wave.length - 1) 0] := by
      rw [show wave.length - 1 - 1 = wave.length - 2 by omega]
      rw [take_two_drop flux (wave.length - 2) (by omega)]
      rw [show wave.length - 2 + 1 = wave.length - 1 by omega]
    have hwl : (wave.drop (wave.length - 1 - 1)).take 2 =
        [wave.getD (wave.length - 2) 0, wave.getD (wave.length - 1) 0] := by
      rw [show wave.length - 1 - 1 = wave.length - 2 by omega]
      rw [take_two_drop wave (wave.length - 2) (by omega)]
      rw [show wave.length - 2 + 1 = wave.length - 1 by omega]
    rw [hfl, hwl]
    show npInterpT (a / 2)
        [flux.getD (wave.length - 1) 0, flux.getD (wave.length - 2) 0]
        [wave.getD (wave.length - 1) 0, wave.getD (wave.length - 2) 0] =
      wave.getD (wave.length - 1) 0
    have hlast : a / 2 < flux.getD (wave.length - 1) 0 :=
      hpre (wave.length - 1) (List.mem_range.mpr (by omega)) (by omega)
    rw [npInterpT, if_pos hlast]

unseal Rat.add Rat.mul Rat.inv Rat.sub Rat.ofScientific in
theorem widthWalk_clamps_witness :
    (([10, 10, 10, 10, 10] : List ℚ).length = ([0, 1, 2, 3, 4] : List ℚ).length ∧
      3 ≤ ([0, 1, 2, 3, 4] : List ℚ).length) ∧
    (widthWalk [0, 1, 2, 3, 4] [10, 10, 10, 10, 10] 2).1 =
      ([0, 1, 2, 3, 4] : List ℚ).getD 0 0 ∧
    (widthWalk [0, 1, 2, 3, 4] [10, 10, 10, 10, 10] 2).2 =
      ([0, 1, 2, 3, 4] : List ℚ).getD (([0, 1, 2, 3, 4] : List ℚ).length - 1) 0 :=
  ⟨⟨by decide, by decide⟩,
    (widthWalk_clamps [0, 1, 2, 3, 4] [10, 10, 10, 10, 10] 2
      (by decide) (by decide)).1 (by decide),
    (widthWalk_clamps [0, 1, 2, 3, 4] [10, 10, 10, 10, 10] 2
      (by decide) (by decide)).2 (by decide)⟩

theorem getD_zipWith_of_lt {α β γ : Type} (f : α → β → γ) (as : List α) (bs : List β)
    (i : ℕ) (da : α) (db : β) (dc : γ) :
    ∀ (ha : i < as.length) (hb : i < bs.length),
      (List.zipWith f as bs).getD i dc = f (as.getD i da) (bs.getD i db) := by
  induction as generalizing bs i with
  | nil => intro ha; simp at ha
  | cons a at' ih =>
    intro ha hb
    cases bs with
    | nil => simp at hb
    | cons b bt =>
      cases i with
      | zero => rfl
      | succ n =>
        show (List.zipWith f at' bt).getD n dc = _
        exact ih bt n (by simpa using ha) (by simpa using hb)

theorem getD_take_of_lt {α : Type} (l : List α) (n i : ℕ) (d : α) (h : i < n) :
    (l.take n).getD i d = l.getD i d := by
  rw [List.getD_eq_getElem?_getD, List.getD_eq_getElem?_getD,
    List.getElem?_take_of_lt h]

theorem mapM_except_ok {ε : Type} {α β : Type} (f : α → Except ε β) (da : α) (db : β) :
    ∀ (rows : List α) (cs : List β), rows.mapM f = .ok cs →
      cs.length = rows.length ∧
      ∀ i, i < rows.length → f (rows.getD i da) = .ok (cs.getD i db) := by
  intro rows
  induction rows with
  | nil =>
    intro cs h
    simp only [List.mapM_nil] at h
    cases h
    exact ⟨rfl, fun i hi => absurd hi (by simp)⟩
  | cons a rest ih =>
    intro cs h
    simp only [List.mapM_cons] at h
    cases hfa : f a with
    | error e => rw [hfa] at h; cases h
    | ok b =>
      rw [hfa] at h
      cases hrest : rest.mapM f with
      | error e =>
        rw [hrest] at h
        cases h
      | ok bs =>
        rw [hrest] at h
        have hcs : cs = b :: bs := by
          cases h
          rfl
        subst hcs
        rcases ih bs hrest with ⟨hlen, hidx⟩
        refine ⟨by simp [hlen], fun i hi => ?_⟩
        cases i with
        | zero => exact hfa
        | succ n => exact hidx n (by simpa using hi)

theorem padFlux_length (f : List (Option ℚ)) :
    (padFlux f).length = f.length + (100 - f.length % 100) := by
  simp [padFlux]

theorem extractContinuum_ok_length (fl : List (Option ℚ)) (c : List ℚ)
    (h : extractContinuum fl = .ok c) : c.length = (padFlux fl).length := by
  rw [extractContinuum] at h
  cases h1 : fitBand fl (contPixels1 fl) with
  | error e => rw [h1] at h; cases h
  | ok fit1 =>
    rw [h1] at h
    cases h2 : fitBand fl (contPixels2 fl) with
    | error e => rw [h2] at h; cases h
    | ok fit2 =>
      rw [h2] at h
      cases h3 : fitBand fl (contPixels3 fl) with
      | error e => rw [h3] at h; cases h
      | ok fit3 =>
        rw [h3] at h
        cases h
        simp only [polyRange, List.length_append, List.length_take,
          List.length_drop, List.length_map, List.length_range]
        omega

theorem continuum_normalize_ok (ds : Dataset) (out : Dataset)
    (h : continuum_normalize ds = .ok out) :
    ∃ conts, ds.flux.mapM extractContinuum = .ok conts ∧
      out.wave = ds.wave ∧
      out.flux = ds.flux.zipWith
        (fun row c => row.zipWith (fun f cv => f.map (· / cv)) c)
        (conts.map (fun c => c.take (ds.flux.headD []).length)) ∧
      out.ivar = ds.ivar.zipWith
        (fun row c => row.zipWith (fun v cv => v.map (· * cv ^ 2)) c)
        (conts.map (fun c => c.take (ds.flux.headD []).length)) := by
  rw [continuum_normalize] at h
  cases hm : ds.flux.mapM extractContinuum with
  | error e => rw [hm] at h; cases h
  | ok conts =>
    rw [hm] at h
    cases hh : ds.flux.head? with
    | none =>
      rw [hh] at h
      cases h
    | some r0 =>
      rw [hh] at h
      refine ⟨conts, rfl, ?_⟩
      have hr0 : (ds.flux.headD []).length = r0.length := by
        rw [List.headD_eq_head?_getD, hh]
        rfl
      cases h
      exact ⟨rfl, by rw [hr0], by rw [hr0]⟩

/-- C9: continuum normalization returns, per spectrum and pixel, the flux
divided by that spectrum's own continuum and the inverse variance multiplied
by the squared continuum (each spectrum's continuum is computed from that
spectrum's flux alone — no cross-spectrum dependency), and a missing flux or
ivar value stays missing at the same position. -/
theorem continuum_normalize_componentwise (ds : Dataset) (i j : ℕ)
    (hi : i < ds.flux.length)
    (hN : j < (ds.flux.headD []).length)
    (hrow : (ds.flux.getD i []).length = (ds.flux.headD []).length)
    (hivlen : ds.ivar.length = ds.flux.length)
    (hivrow : (ds.ivar.getD i []).length = (ds.flux.headD []).length) :
    ((continuum_normalize ds).toOption.map
        (fun o => (o.flux.getD i []).getD j none)
      = (continuum_normalize ds).toOption.bind (fun _ =>
          (extractContinuum (ds.flux.getD i [])).toOption.map (fun cont =>
            ((ds.flux.getD i []).getD j none).map (fun x => x / cont.getD j 0))))
    ∧ ((continuum_normalize ds).toOption.map
        (fun o => (o.ivar.getD i []).getD j none)
      = (continuum_normalize ds).toOption.bind (fun _ =>
          (extractContinuum (ds.flux.getD i [])).toOption.map (fun cont =>
            ((ds.ivar.getD i []).getD j none).map (fun x => x * cont.getD j 0 ^ 2))))
    ∧ ((ds.flux.getD i []).getD j none = none →
      (continuum_normalize ds).toOption.map
          (fun o => (o.flux.getD i []).getD j none)
        = (continuum_normalize ds).toOption.map (fun _ => (none : Option ℚ)))
    ∧ ((ds.ivar.getD i []).getD j none = none →
      (continuum_normalize ds).toOption.map
          (fun o => (o.ivar.getD i []).getD j none)
        = (continuum_normalize ds).toOption.map (fun _ => (none : Option ℚ))) := by
  cases hcn : continuum_normalize ds with
  | error e => simp [Except.toOption]
  | ok out =>
    rcases continuum_normalize_ok ds out hcn with ⟨conts, hm, hw, hf, hv⟩
    rcases mapM_except_ok extractContinuum [] [] ds.flux conts hm with ⟨hclen, hcidx⟩
    have hoki : extractContinuum (ds.flux.getD i []) = .ok (conts.getD i []) :=
      hcidx i hi
    have hLi : (conts.getD i []).length = (padFlux (ds.flux.getD i [])).length :=
      extractContinuum_ok_length _ _ hoki
    have hNle : (ds.flux.headD []).length < (conts.getD i []).length := by
      rw [hLi, padFlux_length, hrow]
      omega
    have hfentry : (out.flux.getD i []).getD j none =
        ((ds.flux.getD i []).getD j none).map
          (fun x => x / (conts.getD i []).getD j 0) := by
      rw [hf]
      rw [getD_zipWith_of_lt _ ds.flux (conts.map (fun c => c.take (ds.flux.headD []).length))
        i [] [] [] hi (by rw [List.length_map, hclen]; exact hi)]
      have hcmap : (conts.map (fun c => c.take (ds.flux.headD []).length)).getD i [] =
          (conts.getD i []).take (ds.flux.headD []).length := by
        have h0 := getD_map_eq (fun c => c.take (ds.flux.headD []).length) [] conts i
        simpa using h0
      rw [hcmap]
      rw [getD_zipWith_of_lt _ (ds.flux.getD i [])
        ((conts.getD i []).take (ds.flux.headD []).length) j none 0 none
        (by omega) (by rw [List.length_take]; omega)]
      rw [getD_take_of_lt _ _ _ _ hN]
    have hventry : (out.ivar.getD i []).getD j none =
        ((ds.ivar.getD i []).getD j none).map
          (fun x => x * (conts.getD i []).getD j 0 ^ 2) := by
      rw [hv]
      rw [getD_zipWith_of_lt _ ds.ivar (conts.map (fun c => c.take (ds.flux.headD []).length))
        i [] [] [] (by omega) (by rw [List.length_map, hclen]; exact hi)]
      have hcmap : (conts.map (fun c => c.take (ds.flux.headD []).length)).getD i [] =
          (conts.getD i []).take (ds.flux.headD []).length := by
        have h0 := getD_map_eq (fun c => c.take (ds.flux.headD []).length) [] conts i
        simpa using h0
      rw [hcmap]
      rw [getD_zipWith_of_lt _ (ds.ivar.getD i [])
        ((conts.getD i []).take (ds.flux.headD []).length) j none 0 none
        (by omega) (by rw [List.length_take]; omega)]
      rw [getD_take_of_lt _ _ _ _ hN]
    refine ⟨?_, ?_, ?_, ?_⟩
    · show some ((out.flux.getD i []).getD j none) = _
      rw [hoki]
      exact congrArg some hfentry
    · show some ((out.ivar.getD i []).getD j none) = _
      rw [hoki]
      exact congrArg some hventry
    · intro hnone
      show some ((out.flux.getD i []).getD j none) = some none
      rw [hfentry, hnone]
      rfl
    · intro hnone
      show some ((out.ivar.getD i []).getD j none) = some none
      rw [hventry, hnone]
      rfl

theorem continuum_normalize_componentwise_witness :
    (0 < dsW9.flux.length ∧ 0 < (dsW9.flux.headD []).length ∧
      (dsW9.flux.getD 0 []).length = (dsW9.flux.headD []).length ∧
      dsW9.ivar.length = dsW9.flux.length ∧
      (dsW9.ivar.getD 0 []).length = (dsW9.flux.headD []).length) ∧
    (((continuum_normalize dsW9).toOption.map
        (fun o => (o.flux.getD 0 []).getD 0 none)
      = (continuum_normalize dsW9).toOption.bind (fun _ =>
          (extractContinuum (dsW9.flux.getD 0 [])).toOption.map (fun cont =>
            ((dsW9.flux.getD 0 []).getD 0 none).map (fun x => x / cont.getD 0 0))))
    ∧ ((continuum_normalize dsW9).toOption.map
        (fun o => (o.ivar.getD 0 []).getD 0 none)
      = (continuum_normalize dsW9).toOption.bind (fun _ =>
          (extractContinuum (dsW9.flux.getD 0 [])).toOption.map (fun cont =>
            ((dsW9.ivar.getD 0 []).getD 0 none).map (fun x => x * cont.getD 0 0 ^ 2))))
    ∧ ((dsW9.flux.getD 0 []).getD 0 none = none →
      (continuum_normalize dsW9).toOption.map
          (fun o => (o.flux.getD 0 []).getD 0 none)
        = (continuum_normalize dsW9).toOption.map (fun _ => (none : Option ℚ)))
    ∧ ((dsW9.ivar.getD 0 []).getD 0 none = none →
      (continuum_normalize dsW9).toOption.map
          (fun o => (o.ivar.getD 0 []).getD 0 none)
        = (continuum_normalize dsW9).toOption.map (fun _ => (none : Option ℚ)))) :=
  ⟨⟨by decide, by decide, by decide, by decide, by decide⟩,
    continuum_normalize_componentwise dsW9 0 0 (by decide) (by decide) (by decide)
      (by decide) (by decide)⟩

theorem except_map_ok {ε α β : Type} (f : α → β) (a : α) :
    (Except.ok a : Except ε α).map f = .ok (f a) := rfl

theorem except_map_error {ε α β : Type} (f : α → β) (e : ε) :
    (Except.error e : Except ε α).map f = .error e := rfl

theorem except_ok_bind {ε α β : Type} (a : α) (k : α → Except ε β) :
    (Except.ok a : Except ε α) >>= k = k a := rfl

theorem except_error_bind {ε α β : Type} (e : ε) (k : α → Except ε β) :
    (Except.error e : Except ε α) >>= k = .error e := rfl

theorem sort_map_monotone (f : ℚ → ℚ) (hf : ∀ a b : ℚ, a ≤ b → f a ≤ f b)
    (v : List ℚ) :
    List.insertionSort (· ≤ ·) (v.map f) = (List.insertionSort (· ≤ ·) v).map f := by
  have hp : List.Perm (List.insertionSort (· ≤ ·) (v.map f))
      ((List.insertionSort (· ≤ ·) v).map f) :=
    (List.perm_insertionSort _ _).trans
      (((List.perm_insertionSort (· ≤ ·) v).symm).map f)
  have hs1 : List.Sorted (· ≤ ·) (List.insertionSort (· ≤ ·) (v.map f)) :=
    List.sorted_insertionSort _ _
  have hs2 : List.Sorted (· ≤ ·) ((List.insertionSort (· ≤ ·) v).map f) :=
    List.Pairwise.map f hf (List.sorted_insertionSort (· ≤ ·) v)
  exact List.eq_of_perm_of_sorted hp hs1 hs2

theorem sortedVals_scale (c : ℚ) (hc : 0 < c) (l : List (Option ℚ)) :
    sortedVals (scaleO c l) = (sortedVals l).map (c * ·) := by
  rw [sortedVals, sortedVals, scaleO, List.filterMap_map]
  have h1 : List.filterMap (id ∘ Option.map (c * ·)) l =
      (l.filterMap id).map (c * ·) := by
    rw [List.map_filterMap]
    rfl
  rw [h1]
  exact sort_map_monotone (c * ·)
    (fun a b hab => mul_le_mul_of_nonneg_left hab (le_of_lt hc)) _

theorem percLin_scale (c : ℚ) (v : List ℚ) (q : ℚ) :
    percLin (v.map (c * ·)) q = c * percLin v q := by
  simp only [percLin, List.length_map]
  generalize ((v.length : ℚ) - 1) * q / 100 = H
  generalize (Int.floor H).toNat = i
  have hg : ∀ j : ℕ, (v.map (c * ·)).getD j 0 = c * v.getD j 0 := by
    intro j
    have h0 := getD_map_eq (c * ·) 0 v j
    rwa [mul_zero] at h0
  rw [hg i]
  have hg2 : (v.map (c * ·)).getD (i + 1) (c * v.getD i 0) =
      c * v.getD (i + 1) (v.getD i 0) :=
    getD_map_eq (c * ·) (v.getD i 0) v (i + 1)
  rw [hg2]
  ring

theorem nanPercentile_scale (c : ℚ) (hc : 0 < c) (q : ℚ) (l : List (Option ℚ)) :
    nanPercentile q (scaleO c l) = (nanPercentile q l).map (c * ·) := by
  rw [nanPercentile, nanPercentile, sortedVals_scale c hc]
  cases hsv : sortedVals l with
  | nil => rfl
  | cons a t =>
    rw [if_neg (by simp), if_neg (by simp)]
    rw [← hsv, percLin_scale]
    rfl

theorem oLT_scale (c : ℚ) (hc : 0 < c) (a b : Option ℚ) :
    oLT (Option.map (c * ·) a) (Option.map (c * ·) b) = oLT a b := by
  cases a <;> cases b <;> simp [oLT]
  exact mul_lt_mul_left hc

theorem getD_scaleO (c : ℚ) (l : List (Option ℚ)) (j : ℕ) :
    (scaleO c l).getD j none = Option.map (c * ·) (l.getD j none) :=
  getD_map_eq (Option.map (c * ·)) none l j

theorem selectedIdx_scale (c : ℚ) (hc : 0 < c) (seg : List (Option ℚ)) :
    selectedIdx (scaleO c seg) = selectedIdx seg := by
  rw [selectedIdx, selectedIdx]
  have hlen : (scaleO c seg).length = seg.length := by
    simp [scaleO]
  rw [hlen]
  apply List.filter_congr
  intro j hj
  rw [nanPercentile_scale c hc, nanPercentile_scale c hc, getD_scaleO,
    oLT_scale c hc, oLT_scale c hc]

theorem chunkGo_map {α β : Type} (g : α → β) (k : ℕ) :
    ∀ (fuel : ℕ) (l : List α),
      chunkGo k fuel (l.map g) = (chunkGo k fuel l).map (List.map g) := by
  intro fuel
  induction fuel with
  | zero => intro l; rfl
  | succ f ih =>
    intro l
    cases l with
    | nil => rfl
    | cons a t =>
      show (if false = true then _ else _) = _
      rw [if_neg (by simp)]
      show _ :: chunkGo k f ((a :: t).map g |>.drop k) = _
      rw [← List.map_drop, ih, ← List.map_take]
      rfl

theorem padFlux_scale (c : ℚ) (l : List (Option ℚ)) :
    padFlux (scaleO c l) = scaleO c (padFlux l) := by
  rw [padFlux, padFlux, scaleO, scaleO, List.map_append, List.map_replicate,
    List.length_map]
  rfl

theorem fluxSegments_scale (c : ℚ) (l : List (Option ℚ)) :
    fluxSegments (scaleO c l) =
      (fluxSegments l).map (List.map (Option.map (c * ·))) := by
  rw [fluxSegments, fluxSegments, padFlux_scale, chunkList, chunkList, scaleO,
    List.length_map, chunkGo_map]

theorem enumFrom_map {α β : Type} (g : α → β) :
    ∀ (n : ℕ) (l : List α),
      (l.map g).enumFrom n = (l.enumFrom n).map (Prod.map id g) := by
  intro n l
  induction l generalizing n with
  | nil => rfl
  | cons a t ih =>
    show (n, g a) :: (t.map g).enumFrom (n + 1) = _
    rw [ih (n + 1)]
    rfl

theorem allContinuumPixels_scale (c : ℚ) (hc : 0 < c) (fl : List (Option ℚ)) :
    allContinuumPixels (scaleO c fl) = allContinuumPixels fl := by
  rw [allContinuumPixels, allContinuumPixels, fluxSegments_scale,
    List.enum_eq_enumFrom, List.enum_eq_enumFrom, enumFrom_map, List.flatMap_map]
  congr 1
  funext p
  show (selectedIdx (List.map (Option.map (c * ·)) p.2)).map (· + 100 * p.1) = _
  rw [show List.map (Option.map (c * ·)) p.2 = scaleO c p.2 from rfl,
    selectedIdx_scale c hc]

theorem normalVec_scale (xs : List ℕ) (ys : List ℚ) (c : ℚ) :
    normalVec xs (ys.map (c * ·)) = c • normalVec xs ys := by
  funext i
  show ((xs.zip (ys.map (c * ·))).map _).sum = _
  rw [List.zip_map_right, List.map_map]
  have hfun : ((fun p : ℕ × ℚ => (p.1 : ℚ) ^ (6 - i.val) * p.2) ∘
      Prod.map id (c * ·)) = fun p : ℕ × ℚ => c * ((p.1 : ℚ) ^ (6 - i.val) * p.2) := by
    funext p
    show (p.1 : ℚ) ^ (6 - i.val) * (c * p.2) = _
    ring
  rw [hfun, List.sum_map_mul_left]
  rfl

theorem mapM_id_map_scale (f : ℚ → ℚ) :
    ∀ oys : List (Option ℚ),
      (oys.map (Option.map f)).mapM (fun o => o) =
        (oys.mapM (fun o => o)).map (List.map f) := by
  intro oys
  induction oys with
  | nil => rfl
  | cons a t ih =>
    simp only [List.map_cons, List.mapM_cons, ih]
    cases a with
    | none => rfl
    | some x =>
      cases ht : t.mapM (fun o : Option ℚ => o) with
      | none => rfl
      | some ys => rfl

theorem polyfitO_scale (xs : List ℕ) (oys : List (Option ℚ)) (c : ℚ) :
    polyfitO xs (oys.map (Option.map (c * ·))) =
      (polyfitO xs oys).map (List.map (c * ·)) := by
  rw [polyfitO, polyfitO]
  by_cases hxs : xs.isEmpty
  · rw [if_pos hxs, if_pos hxs]
    rfl
  rw [if_neg hxs, if_neg hxs, mapM_id_map_scale]
  cases hm : oys.mapM (fun o => o) with
  | none => rfl
  | some ys =>
    show (if (normalMat xs).det = 0
        then (Except.error ContErr.singularFit : Except ContErr (List ℚ))
        else Except.ok ((List.finRange 7).map (fun i =>
          Matrix.cramer (normalMat xs) (normalVec xs (ys.map (c * ·))) i /
            (normalMat xs).det))) =
      Except.map (List.map (c * ·))
        (if (normalMat xs).det = 0
         then Except.error ContErr.singularFit
         else Except.ok ((List.finRange 7).map (fun i =>
           Matrix.cramer (normalMat xs) (normalVec xs ys) i / (normalMat xs).det)))
    by_cases hdet : (normalMat xs).det = 0
    · rw [if_pos hdet, if_pos hdet]
      rfl
    rw [if_neg hdet, if_neg hdet, except_map_ok, normalVec_scale]
    congr 1
    rw [List.map_map]
    refine List.map_congr_left (fun i _ => ?_)
    show Matrix.cramer (normalMat xs) (c • normalVec xs ys) i / (normalMat xs).det =
      c * (Matrix.cramer (normalMat xs) (normalVec xs ys) i / (normalMat xs).det)
    rw [LinearMap.map_smul]
    show c • Matrix.cramer (normalMat xs) (normalVec xs ys) i / _ = _
    rw [smul_eq_mul, mul_div_assoc]

theorem polyval_foldl_scale (c x : ℚ) :
    ∀ (p : List ℚ) (a : ℚ),
      List.foldl (fun acc co => acc * x + co) (c * a) (p.map (c * ·)) =
        c * List.foldl (fun acc co => acc * x + co) a p := by
  intro p
  induction p with
  | nil => intro a; rfl
  | cons h t ih =>
    intro a
    simp only [List.map_cons, List.foldl_cons]
    rw [show c * a * x + c * h = c * (a * x + h) by ring]
    exact ih _

theorem polyval_scale (c x : ℚ) (p : List ℚ) :
    polyval (p.map (c * ·)) x = c * polyval p x := by
  rw [polyval, polyval]
  conv_lhs => rw [show (0 : ℚ) = c * 0 by ring]
  exact polyval_foldl_scale c x p 0

theorem polyRange_scale (c : ℚ) (p : List ℚ) (L : ℕ) :
    polyRange (p.map (c * ·)) L = (polyRange p L).map (c * ·) := by
  rw [polyRange, polyRange, List.map_map]
  exact List.map_congr_left (fun i _ => polyval_scale c (i : ℚ) p)

theorem getD_padFlux_scale (c : ℚ) (fl : List (Option ℚ)) (p : ℕ) :
    (padFlux (scaleO c fl)).getD p none =
      Option.map (c * ·) ((padFlux fl).getD p none) := by
  rw [padFlux_scale]
  exact getD_scaleO c (padFlux fl) p

theorem fitBand_scale (c : ℚ) (fl : List (Option ℚ)) (pix : List ℕ) :
    fitBand (scaleO c fl) pix = (fitBand fl pix).map (List.map (c * ·)) := by
  rw [fitBand, fitBand]
  have hmap : pix.map (fun p => (padFlux (scaleO c fl)).getD p none) =
      (pix.map (fun p => (padFlux fl).getD p none)).map (Option.map (c * ·)) := by
    rw [List.map_map]
    exact List.map_congr_left (fun p _ => getD_padFlux_scale c fl p)
  rw [hmap, polyfitO_scale]

theorem contPixels1_scale (c : ℚ) (hc : 0 < c) (fl : List (Option ℚ)) :
    contPixels1 (scaleO c fl) = contPixels1 fl := by
  rw [contPixels1, contPixels1, allContinuumPixels_scale c hc]

theorem contPixels2_scale (c : ℚ) (hc : 0 < c) (fl : List (Option ℚ)) :
    contPixels2 (scaleO c fl) = contPixels2 fl := by
  rw [contPixels2, contPixels2, allContinuumPixels_scale c hc]

theorem contPixels3_scale (c : ℚ) (hc : 0 < c) (fl : List (Option ℚ)) :
    contPixels3 (scaleO c fl) = contPixels3 fl := by
  rw [contPixels3, contPixels3, allContinuumPixels_scale c hc]

theorem padFlux_scale_length (c : ℚ) (fl : List (Option ℚ)) :
    (padFlux (scaleO c fl)).length = (padFlux fl).length := by
  rw [padFlux_scale, scaleO, List.length_map]

theorem extractContinuum_scale (c : ℚ) (hc : 0 < c) (fl : List (Option ℚ)) :
    extractContinuum (scaleO c fl) = (extractContinuum fl).map (List.map (c * ·)) := by
  show (fitBand (scaleO c fl) (contPixels1 (scaleO c fl)) >>= fun fit1 =>
      fitBand (scaleO c fl) (contPixels2 (scaleO c fl)) >>= fun fit2 =>
      fitBand (scaleO c fl) (contPixels3 (scaleO c fl)) >>= fun fit3 =>
      pure ((polyRange fit1 (padFlux (scaleO c fl)).length).take 3400 ++
        ((polyRange fit2 (padFlux (scaleO c fl)).length).drop 3400).take 2850 ++
        (polyRange fit3 (padFlux (scaleO c fl)).length).drop 6250)) =
    (fitBand fl (contPixels1 fl) >>= fun fit1 =>
      fitBand fl (contPixels2 fl) >>= fun fit2 =>
      fitBand fl (contPixels3 fl) >>= fun fit3 =>
      pure ((polyRange fit1 (padFlux fl).length).take 3400 ++
        ((polyRange fit2 (padFlux fl).length).drop 3400).take 2850 ++
        (polyRange fit3 (padFlux fl).length).drop 6250)).map (List.map (c * ·))
  rw [contPixels1_scale c hc, contPixels2_scale c hc, contPixels3_scale c hc,
    fitBand_scale, fitBand_scale, fitBand_scale, padFlux_scale_length]
  cases h1 : fitBand fl (contPixels1 fl) with
  | error e => rfl
  | ok fit1 =>
    cases h2 : fitBand fl (contPixels2 fl) with
    | error e => rfl
    | ok fit2 =>
      cases h3 : fitBand fl (contPixels3 fl) with
      | error e => rfl
      | ok fit3 =>
        show Except.ok ((polyRange (fit1.map (c * ·)) (padFlux fl).length).take 3400 ++
            ((polyRange (fit2.map (c * ·)) (padFlux fl).length).drop 3400).take 2850 ++
            (polyRange (fit3.map (c * ·)) (padFlux fl).length).drop 6250) =
          Except.ok (((polyRange fit1 (padFlux fl).length).take 3400 ++
            ((polyRange fit2 (padFlux fl).length).drop 3400).take 2850 ++
            (polyRange fit3 (padFlux fl).length).drop 6250).map (c * ·))
        rw [polyRange_scale, polyRange_scale, polyRange_scale, List.map_append,
          List.map_append, List.map_take, List.map_drop, List.map_take,
          List.map_drop]

theorem mapM_extract_scale (c : ℚ) (hc : 0 < c) :
    ∀ rows : List (List (Option ℚ)),
      (rows.map (scaleO c)).mapM extractContinuum =
        (rows.mapM extractContinuum).map (List.map (List.map (c * ·))) := by
  intro rows
  induction rows with
  | nil => rfl
  | cons r t ih =>
    simp only [List.map_cons, List.mapM_cons, ih, extractContinuum_scale c hc]
    cases hr : extractContinuum r with
    | error e => rfl
    | ok cr =>
      cases ht : t.mapM extractContinuum with
      | error e => rfl
      | ok cts => rfl

/-- C8: continuum estimation is positively homogeneous — scaling the flux by
a positive constant scales the estimated continuum (or preserves the failure)
by the same constant — and therefore the normalized flux produced by
continuum normalization is unchanged when every spectrum is scaled. -/
theorem continuum_scale_invariant (c : ℚ) (flux : List (Option ℚ))
    (wv : List (Option ℚ)) (fluxes ivs : List (List (Option ℚ))) (hc : 0 < c) :
    extractContinuum (scaleO c flux) = (extractContinuum flux).map (List.map (c * ·)) ∧
    (continuum_normalize ⟨wv, fluxes.map (scaleO c), ivs⟩).map Dataset.flux =
      (continuum_normalize ⟨wv, fluxes, ivs⟩).map Dataset.flux := by
  refine ⟨extractContinuum_scale c hc flux, ?_⟩
  show (((fluxes.map (scaleO c)).mapM extractContinuum >>= fun conts =>
      (match (fluxes.map (scaleO c)).head? with
       | none => (throw ContErr.indexError : Except ContErr Dataset)
       | some r0 => pure ⟨wv,
           (fluxes.map (scaleO c)).zipWith
             (fun row ct => row.zipWith (fun f cv => f.map (· / cv)) ct)
             (conts.map (fun ct => ct.take r0.length)),
           ivs.zipWith (fun row ct => row.zipWith (fun v cv => v.map (· * cv ^ 2)) ct)
             (conts.map (fun ct => ct.take r0.length))⟩)).map Dataset.flux) =
    ((fluxes.mapM extractContinuum >>= fun conts =>
      (match fluxes.head? with
       | none => (throw ContErr.indexError : Except ContErr Dataset)
       | some r0 => pure ⟨wv,
           fluxes.zipWith (fun row ct => row.zipWith (fun f cv => f.map (· / cv)) ct)
             (conts.map (fun ct => ct.take r0.length)),
           ivs.zipWith (fun row ct => row.zipWith (fun v cv => v.map (· * cv ^ 2)) ct)
             (conts.map (fun ct => ct.take r0.length))⟩)).map Dataset.flux)
  rw [mapM_extract_scale c hc]
  cases hm : fluxes.mapM extractContinuum with
  | error e => rfl
  | ok conts =>
    cases hf : fluxes with
    | nil => rfl
    | cons r0 rest =>
      show Except.ok (((scaleO c r0) :: rest.map (scaleO c)).zipWith
          (fun row ct => row.zipWith (fun f cv => f.map (· / cv)) ct)
          ((conts.map (List.map (c * ·))).map (fun ct => ct.take (scaleO c r0).length))) =
        Except.ok ((r0 :: rest).zipWith
          (fun row ct => row.zipWith (fun f cv => f.map (· / cv)) ct)
          (conts.map (fun ct => ct.take r0.length)))
      congr 1
      have hlen : (scaleO c r0).length = r0.length := by
        rw [scaleO, List.length_map]
      rw [hlen]
      rw [show ((scaleO c r0) :: rest.map (scaleO c)) = ((r0 :: rest).map (scaleO c))
        from rfl]
      have hconts : (conts.map (List.map (c * ·))).map (fun ct => ct.take r0.length) =
          (conts.map (fun ct => ct.take r0.length)).map (List.map (c * ·)) := by
        rw [List.map_map, List.map_map]
        exact List.map_congr_left (fun ct _ => (List.map_take (c * ·) ct r0.length).symm)
      rw [hconts, List.zipWith_map]
      have hF : (fun (row : List (Option ℚ)) (ct : List ℚ) =>
          (scaleO c row).zipWith (fun f cv => f.map (· / cv)) (ct.map (c * ·))) =
          (fun (row : List (Option ℚ)) (ct : List ℚ) =>
            row.zipWith (fun f cv => f.map (· / cv)) ct) := by
        funext row ct
        rw [scaleO, List.zipWith_map]
        have hop : (fun (f : Option ℚ) (cv : ℚ) =>
            (Option.map (c * ·) f).map (· / (c * cv))) =
            (fun (f : Option ℚ) (cv : ℚ) => f.map (· / cv)) := by
          funext f cv
          cases f with
          | none => rfl
          | some x =>
            show some (c * x / (c * cv)) = some (x / cv)
            rw [mul_div_mul_left x cv (ne_of_gt hc)]
        rw [hop]
      rw [hF]

theorem continuum_scale_invariant_witness :
    (0 : ℚ) < 2 ∧
    (extractContinuum (scaleO 2 [some 1]) =
        (extractContinuum [some 1]).map (List.map (2 * ·)) ∧
      (continuum_normalize ⟨[], [[some 1]].map (scaleO 2), [[some 1]]⟩).map
          Dataset.flux =
        (continuum_normalize ⟨[], [[some 1]], [[some 1]]⟩).map Dataset.flux) :=
  ⟨by norm_num,
    continuum_scale_invariant 2 [some 1] [] [[some 1]] [[some 1]] (by norm_num)⟩

theorem plateauGo_ge (x : List ℚ) (imax : ℕ) (v : ℚ) :
    ∀ (fuel ia : ℕ), ia ≤ plateauGo x imax v fuel ia := by
  intro fuel
  induction fuel with
  | zero => intro ia; exact le_rfl
  | succ f ih =>
    intro ia
    rw [plateauGo]
    by_cases hcond : ia < imax ∧ x.getD ia 0 = v
    · rw [if_pos hcond]
      exact le_trans (by omega) (ih (ia + 1))
    · rw [if_neg hcond]

theorem plateauGo_spec (x : List ℚ) (imax : ℕ) (v : ℚ) :
    ∀ (fuel ia : ℕ), ia ≤ imax → imax - ia ≤ fuel →
      plateauGo x imax v fuel ia ≤ imax ∧
      (∀ j, ia ≤ j → j < plateauGo x imax v fuel ia → x.getD j 0 = v) ∧
      (plateauGo x imax v fuel ia = imax ∨
        x.getD (plateauGo x imax v fuel ia) 0 ≠ v) := by
  intro fuel
  induction fuel with
  | zero =>
    intro ia h1 h2
    have hia : ia = imax := by omega
    refine ⟨le_of_eq hia, fun j hj1 hj2 => ?_, Or.inl hia⟩
    exact absurd hj2 (by show ¬j < ia; omega)
  | succ f ih =>
    intro ia h1 h2
    rw [plateauGo]
    by_cases hcond : ia < imax ∧ x.getD ia 0 = v
    · rw [if_pos hcond]
      have hrec := ih (ia + 1) (by omega) (by omega)
      refine ⟨hrec.1, fun j hj1 hj2 => ?_, hrec.2.2⟩
      rcases Nat.eq_or_lt_of_le hj1 with he | hlt
      · rw [he] at hcond
        exact hcond.2
      · exact hrec.2.1 j (by omega) hj2
    · rw [if_neg hcond]
      refine ⟨h1, fun j hj1 hj2 => absurd hj2 (by omega), ?_⟩
      rcases Nat.eq_or_lt_of_le h1 with he | hlt
      · exact Or.inl he
      · exact Or.inr (by tauto)

theorem lmGo_ge (x : List ℚ) (imax : ℕ) :
    ∀ (fuel i p : ℕ), p ∈ lmGo x imax fuel i → i ≤ p := by
  intro fuel
  induction fuel with
  | zero => intro i p hp; cases hp
  | succ f ih =>
    intro i p hp
    rw [lmGo] at hp
    by_cases hi : i < imax
    · rw [if_pos hi] at hp
      by_cases hrise : x.getD (i - 1) 0 < x.getD i 0
      · rw [if_pos hrise] at hp
        by_cases hfall :
            x.getD (plateauGo x imax (x.getD i 0) imax (i + 1)) 0 < x.getD i 0
        · rw [if_pos hfall] at hp
          rcases List.mem_cons.mp hp with h | h
          · have hge := plateauGo_ge x imax (x.getD i 0) imax (i + 1)
            omega
          · have := ih _ p h
            have hge := plateauGo_ge x imax (x.getD i 0) imax (i + 1)
            omega
        · rw [if_neg hfall] at hp
          have := ih _ p hp
          omega
      · rw [if_neg hrise] at hp
        have := ih _ p hp
        omega
    · rw [if_neg hi] at hp
      cases hp

theorem lmGo_sorted (x : List ℚ) (imax : ℕ) :
    ∀ (fuel i : ℕ), List.Sorted (· < ·) (lmGo x imax fuel i) := by
  intro fuel
  induction fuel with
  | zero => intro i; exact List.sorted_nil
  | succ f ih =>
    intro i
    rw [lmGo]
    by_cases hi : i < imax
    · rw [if_pos hi]
      by_cases hrise : x.getD (i - 1) 0 < x.getD i 0
      · rw [if_pos hrise]
        by_cases hfall :
            x.getD (plateauGo x imax (x.getD i 0) imax (i + 1)) 0 < x.getD i 0
        · rw [if_pos hfall]
          rw [List.sorted_cons]
          refine ⟨fun b hb => ?_, ih _⟩
          have hb' := lmGo_ge x imax f _ b hb
          have hge := plateauGo_ge x imax (x.getD i 0) imax (i + 1)
          omega
        · rw [if_neg hfall]
          exact ih _
      · rw [if_neg hrise]
        exact ih _
    · rw [if_neg hi]
      exact List.sorted_nil

theorem eq_of_sorted_lt_of_mem_iff :
    ∀ {l₁ l₂ : List ℕ}, List.Sorted (· < ·) l₁ → List.Sorted (· < ·) l₂ →
      (∀ p, p ∈ l₁ ↔ p ∈ l₂) → l₁ = l₂ := by
  intro l₁
  induction l₁ with
  | nil =>
    intro l₂ _ _ hm
    cases l₂ with
    | nil => rfl
    | cons b u =>
      have hb := (hm b).mpr (by simp)
      cases hb
  | cons a t ih =>
    intro l₂ h1 h2 hm
    cases l₂ with
    | nil =>
      have ha := (hm a).mp (by simp)
      cases ha
    | cons b u =>
      have hab : a = b := by
        have ha2 : a ∈ b :: u := (hm a).mp (by simp)
        have hb1 : b ∈ a :: t := (hm b).mpr (by simp)
        rcases List.mem_cons.mp ha2 with h | h
        · exact h
        · rcases List.mem_cons.mp hb1 with h' | h'
          · exact h'.symm
          · have hba : b < a := (List.sorted_cons.mp h2).1 a h
            have hab' : a < b := (List.sorted_cons.mp h1).1 b h'
            omega
      subst hab
      congr 1
      apply ih (List.sorted_cons.mp h1).2 (List.sorted_cons.mp h2).2
      intro p
      constructor
      · intro hp
        have hap : a < p := (List.sorted_cons.mp h1).1 p hp
        rcases List.mem_cons.mp ((hm p).mp (List.mem_cons_of_mem a hp)) with h | h
        · omega
        · exact h
      · intro hp
        have hap : a < p := (List.sorted_cons.mp h2).1 p hp
        rcases List.mem_cons.mp ((hm p).mpr (List.mem_cons_of_mem a hp)) with h | h
        · omega
        · exact h

theorem lmGo_mem (x : List ℚ) :
    ∀ (fuel i : ℕ), 1 ≤ i → (x.length - 1) + 1 - i ≤ fuel →
      ∀ p, (p ∈ lmGo x (x.length - 1) fuel i ↔ SpecPeakFrom x i p) := by
  intro fuel
  induction fuel with
  | zero =>
    intro i h1 hf p
    constructor
    · intro hp
      cases hp
    · rintro ⟨l, r, hil, ⟨h1l, hlr, hrb, _, _, _⟩, hp⟩
      omega
  | succ f ih =>
    intro i h1 hf p
    rw [lmGo]
    by_cases hi : i < x.length - 1
    case neg =>
      rw [if_neg hi]
      constructor
      · intro hp
        cases hp
      · rintro ⟨l, r, hil, ⟨h1l, hlr, hrb, _, _, _⟩, hp⟩
        omega
    case pos =>
      rw [if_pos hi]
      by_cases hrise : x.getD (i - 1) 0 < x.getD i 0
      case neg =>
        rw [if_neg hrise]
        rw [ih (i + 1) (by omega) (by omega) p]
        constructor
        · rintro ⟨l, r, hil, hP, hp⟩
          exact ⟨l, r, by omega, hP, hp⟩
        · rintro ⟨l, r, hil, hP, hp⟩
          rcases Nat.eq_or_lt_of_le hil with he | hlt
          · exfalso
            rcases hP with ⟨_, _, _, hleft, _, _⟩
            rw [← he] at hleft
            exact hrise hleft
          · exact ⟨l, r, by omega, hP, hp⟩
      case pos =>
        rw [if_pos hrise]
        set ia := plateauGo x (x.length - 1) (x.getD i 0) (x.length - 1) (i + 1)
          with hia_def
        have hia_ge : i + 1 ≤ ia := plateauGo_ge x (x.length - 1) (x.getD i 0)
          (x.length - 1) (i + 1)
        have hspec := plateauGo_spec x (x.length - 1) (x.getD i 0) (x.length - 1)
          (i + 1) (by omega) (by omega)
        rw [← hia_def] at hspec
        by_cases hfall : x.getD ia 0 < x.getD i 0
        case pos =>
          rw [if_pos hfall]
          rw [List.mem_cons, ih (ia + 1) (by omega) (by omega) p]
          constructor
          · rintro (he | ⟨l, r, hil, hP, hp⟩)
            · refine ⟨i, ia - 1, le_rfl, ⟨h1, by omega, by omega, hrise, ?_, ?_⟩, ?_⟩
              · rw [show ia - 1 + 1 = ia by omega]
                exact hfall
              · intro j hj1 hj2
                rcases Nat.eq_or_lt_of_le hj1 with hji | hji
                · rw [← hji]
                · exact hspec.2.1 j (by omega) (by omega)
              · exact he
            · exact ⟨l, r, by omega, hP, hp⟩
          · rintro ⟨l, r, hil, hP, hp⟩
            rcases hP with ⟨h1l, hlr, hrb, hleft, hright, hconst⟩
            rcases Nat.lt_or_ge l (ia + 1) with hlia | hlia
            · have hli : l = i := by
                by_contra hne
                have hl1 : i + 1 ≤ l := by omega
                rcases Nat.lt_or_ge l ia with hlo | hlo
                · have hxl : x.getD l 0 = x.getD i 0 := hspec.2.1 l hl1 hlo
                  have hxl1 : x.getD (l - 1) 0 = x.getD i 0 := by
                    rcases Nat.eq_or_lt_of_le hl1 with he2 | hlt2
                    · rw [show l - 1 = i by omega]
                    · exact hspec.2.1 (l - 1) (by omega) (by omega)
                  rw [hxl, hxl1] at hleft
                  exact lt_irrefl _ hleft
                · have hlia2 : l = ia := by omega
                  have hxm1 : x.getD (ia - 1) 0 = x.getD i 0 := by
                    rcases Nat.eq_or_lt_of_le hia_ge with he2 | hlt2
                    · rw [show ia - 1 = i by omega]
                    · exact hspec.2.1 (ia - 1) (by omega) (by omega)
                  rw [hlia2, hxm1] at hleft
                  exact lt_asymm hleft hfall
              have hri : r = ia - 1 := by
                by_contra hne
                rcases Nat.lt_or_ge r (ia - 1) with hro | hro
                · have hx : x.getD (r + 1) 0 = x.getD i 0 :=
                    hspec.2.1 (r + 1) (by omega) (by omega)
                  rw [hx, hli] at hright
                  exact lt_irrefl _ hright
                · have hria : ia ≤ r := by omega
                  have hx : x.getD ia 0 = x.getD l 0 :=
                    hconst ia (by omega) (by omega)
                  rw [hx, hli] at hfall
                  exact lt_irrefl _ hfall
              left
              rw [hp, hli, hri]
            · right
              exact ⟨l, r, hlia, ⟨h1l, hlr, hrb, hleft, hright, hconst⟩, hp⟩
        case neg =>
          rw [if_neg hfall]
          rw [ih (i + 1) (by omega) (by omega) p]
          constructor
          · rintro ⟨l, r, hil, hP, hp⟩
            exact ⟨l, r, by omega, hP, hp⟩
          · rintro ⟨l, r, hil, hP, hp⟩
            rcases Nat.eq_or_lt_of_le hil with he | hlt
            · exfalso
              rcases hP with ⟨h1l, hlr, hrb, hleft, hright, hconst⟩
              rcases Nat.lt_or_ge (r + 1) ia with hro | hro
              · have hx : x.getD (r + 1) 0 = x.getD i 0 :=
                  hspec.2.1 (r + 1) (by omega) hro
                rw [hx, ← he] at hright
                exact lt_irrefl _ hright
              · rcases Nat.eq_or_lt_of_le hro with he2 | hlt2
                · rw [← he, ← he2] at hright
                  exact hfall hright
                · have hconst_ia : x.getD ia 0 = x.getD l 0 :=
                    hconst ia (by omega) (by omega)
                  rcases hspec.2.2 with him | hne2
                  · omega
                  · rw [← he] at hconst_ia
                    exact hne2 hconst_ia
            · exact ⟨l, r, by omega, hP, hp⟩

theorem plateauAtB_iff (x : List ℚ) (l r : ℕ) :
    plateauAtB x l r = true ↔ PlateauAt x l r := by
  rw [plateauAtB, PlateauAt]
  simp only [Bool.and_eq_true, decide_eq_true_eq, List.all_eq_true, List.mem_range]
  constructor
  · rintro ⟨⟨⟨⟨⟨ha, hb⟩, hc⟩, hd⟩, he⟩, hf⟩
    refine ⟨ha, hb, hc, hd, he, ?_⟩
    intro j hj1 hj2
    have hk := hf (j - l) (by omega)
    rw [show l + (j - l) = j by omega] at hk
    exact hk
  · rintro ⟨ha, hb, hc, hd, he, hf⟩
    refine ⟨⟨⟨⟨⟨ha, hb⟩, hc⟩, hd⟩, he⟩, ?_⟩
    intro k hk
    exact hf (l + k) (by omega) (by omega)

theorem isSpecPeak_iff (x : List ℚ) (p : ℕ) :
    isSpecPeak x p = true ↔ SpecPeakFrom x 1 p := by
  rw [isSpecPeak, SpecPeakFrom]
  simp only [List.any_eq_true, List.mem_range, Bool.and_eq_true, decide_eq_true_eq]
  constructor
  · rintro ⟨l, hl, r, hr, hB, hp⟩
    exact ⟨l, r, ((plateauAtB_iff x l r).mp hB).1, (plateauAtB_iff x l r).mp hB, hp⟩
  · rintro ⟨l, r, h1, hP, hp⟩
    have hln : l < x.length := by
      rcases hP with ⟨_, hlr, hrb, _, _, _⟩
      omega
    have hrn : r < x.length := by
      rcases hP with ⟨_, _, hrb, _, _, _⟩
      omega
    exact ⟨l, hln, r, hrn, (plateauAtB_iff x l r).mpr hP, hp⟩

/-- C2 (amended): the detector returns exactly the ascending pixel indices
`p` such that `p` is the rounded-down midpoint of an interior maximal
plateau (a strict local maximum is the one-sample case) whose height is at
least the 0.05 threshold — `scipy.signal.find_peaks` reports the middle
sample of a flat peak, not the first, and its height condition is
`flux[p] >= 0.05`, not strict. -/
theorem detect_eq_specDetect (w iv : List (Option ℚ)) (x : List ℚ) :
    detect w x iv = specDetect x := by
  rw [detect, specDetect, localMaxima]
  apply eq_of_sorted_lt_of_mem_iff
  · exact List.Pairwise.filter _ (lmGo_sorted x (x.length - 1) x.length 1)
  · exact List.Pairwise.filter _ (List.sorted_lt_range x.length)
  · intro p
    rw [List.mem_filter, List.mem_filter]
    constructor
    · rintro ⟨hmem, hh⟩
      have hsp : SpecPeakFrom x 1 p :=
        (lmGo_mem x x.length 1 le_rfl (by omega) p).mp hmem
      have hpn : p < x.length := by
        rcases hsp with ⟨l, r, h1, ⟨_, hlr, hrb, _, _, _⟩, hp⟩
        omega
      refine ⟨List.mem_range.mpr hpn, ?_⟩
      rw [Bool.and_eq_true]
      exact ⟨(isSpecPeak_iff x p).mpr hsp, hh⟩
    · rintro ⟨hmem, hcond⟩
      rw [Bool.and_eq_true] at hcond
      refine ⟨?_, hcond.2⟩
      exact (lmGo_mem x x.length 1 le_rfl (by omega) p).mpr
        ((isSpecPeak_iff x p).mp hcond.1)
